import Mathlib

/-!
Verification of the LearningTool backend ingestion/parsing layer.

This file shallowly embeds the Python code under `backend/src/` — the
structured-parsing engine (`ingestion/transformations.py`), the extraction
adapters (`ingestion/extractors.py`), the dual-write persistence pipeline
(`ingestion/pipeline.py`) and the feed listing (`routers/knowledge.py`) — and
proves or refutes the specification claims about them.

Python regular expressions are embedded by a small backtracking engine
(`RE` / `reMatches`) that enumerates candidate matches in exactly Python's
backtracking preference order (greedy quantifiers longest-first, lazy
shortest-first, alternation left-first), so the head of the enumeration is the
match `re` chooses.  Character classes are modelled on their ASCII fragment
(`\s`, `\d`, `\w` as ASCII), matching how the code is exercised.
-/

namespace LearningTool

/-- Strings as explicit character lists (Python `str` values). -/
abbrev Str := List Char

/-- ASCII fragment of Python's `\s` class. -/
def pySpace (c : Char) : Bool :=
  c = ' ' || c = '\t' || c = '\n' || c = '\r' || c = '\x0b' || c = '\x0c'

/-- Python's `\d` (ASCII fragment). -/
def pyDigit (c : Char) : Bool := c.isDigit

/-- Python's `\w` word characters (ASCII fragment): letters, digits, underscore. -/
def pyWord (c : Char) : Bool := c.isAlphanum || c = '_'

/-- ASCII lower-casing, as used by `re.IGNORECASE` and `str.lower` on ASCII. -/
def lowerC (c : Char) : Char := c.toLower

def lowerS (s : Str) : Str := s.map lowerC

/-- Python `str.strip()` (ASCII whitespace fragment). -/
def pyStrip (s : Str) : Str :=
  ((s.dropWhile pySpace).reverse.dropWhile pySpace).reverse

/-- Python `str.split(sep)` for a single-character separator: split at every
occurrence, keeping empty pieces. -/
def splitChar (sep : Char) : Str → List Str
  | [] => [[]]
  | c :: cs =>
    let r := splitChar sep cs
    if c = sep then [] :: r
    else match r with
      | [] => [[c]]
      | h :: t => (c :: h) :: t

/-- Index of the first occurrence of `pat` as a sublist of `s`, if any. -/
def findSubstr (pat : Str) : Str → Option Nat
  | [] => if pat = [] then some 0 else none
  | c :: cs =>
    if pat.isPrefixOf (c :: cs) then some 0
    else (findSubstr pat cs).map (· + 1)

/-- Python `str.split(sep)` for a non-empty separator string: leftmost
non-overlapping occurrences, keeping empty pieces.  `fuel` bounds recursion. -/
def splitSubstrFuel (pat : Str) : Nat → Str → List Str
  | 0, s => [s]
  | Nat.succ n, s =>
    match findSubstr pat s with
    | none => [s]
    | some i => s.take i :: splitSubstrFuel pat n (s.drop (i + pat.length))

def splitSubstr (pat s : Str) : List Str := splitSubstrFuel pat (s.length + 1) s

/-- Python `sep.join(xs)`. -/
def joinSep (sep : Str) : List Str → Str
  | [] => []
  | [x] => x
  | x :: y :: t => x ++ sep ++ joinSep sep (y :: t)

/-- Python `str.startswith(pat)`. -/
def pyStartsWith (pat s : Str) : Bool := pat.isPrefixOf s

/-! ## The regex engine

Quantifiers in every pattern appearing in the source apply to single-character
items, so quantified forms are built into character-class constructors
(avoiding nested-star termination issues).  `^`-anchoring is expressed by the
call sites (`re.match` tries position 0 only; `re.search`/`re.sub` scan). -/

/-- Abstract syntax of the regular expressions used by the source. -/
inductive RE where
  /-- a single character of a class -/
  | cls (p : Char → Bool)
  /-- a literal string, optionally case-insensitive (`re.IGNORECASE`) -/
  | lit (s : Str) (ci : Bool)
  | cat (a b : RE)
  | alt (a b : RE)
  /-- greedy `?` -/
  | opt (a : RE)
  /-- `p{n}` -/
  | rep (n : Nat) (p : Char → Bool)
  /-- greedy `p{n,}` (so `p*` is `atLeast 0`, `p+` is `atLeast 1`) -/
  | atLeast (n : Nat) (p : Char → Bool)
  /-- lazy `p+?` -/
  | lazyPlus (p : Char → Bool)
  /-- lookahead `(?=a)` -/
  | look (a : RE)
  /-- `\b` -/
  | wordB
  /-- `$` (end of string, or just before a final newline) -/
  | eos
  /-- capture group -/
  | grp (a : RE)

/-- Engine result: last consumed character (context for `\b`), remaining
input, and the capture of the (single) group if one was passed. -/
abbrev MRes := Option Char × Str × Option Str

/-- Length of the maximal prefix of `s` of characters satisfying `p`. -/
def maxRun (p : Char → Bool) : Str → Nat
  | [] => 0
  | c :: cs => if p c then maxRun p cs + 1 else 0

/-- Consume exactly `k` characters of `s` (given the previous character). -/
def consumeN (prev : Option Char) (s : Str) (k : Nat) : Option Char × Str :=
  (match (s.take k).getLast? with
   | some c => some c
   | none => prev, s.drop k)

def isWordOpt : Option Char → Bool
  | some c => pyWord c
  | none => false

/-- All candidate matches of `r` at the start of `s`, in Python's backtracking
preference order (head = the match `re` returns). -/
def reMatches : RE → Option Char → Str → List MRes
  | .cls p, _, s =>
    match s with
    | [] => []
    | c :: cs => if p c then [(some c, cs, none)] else []
  | .lit l ci, prev, s =>
    if l.length ≤ s.length ∧
        (if ci then lowerS (s.take l.length) = lowerS l else s.take l.length = l) then
      ((match (s.take l.length).getLast? with
        | some c => some c
        | none => prev), s.drop l.length, none) :: []
    else []
  | .cat a b, prev, s =>
    (reMatches a prev s).flatMap fun (p', s', g1) =>
      (reMatches b p' s').map fun (p'', s'', g2) =>
        (p'', s'', match g2 with | some g => some g | none => g1)
  | .alt a b, prev, s => reMatches a prev s ++ reMatches b prev s
  | .opt a, prev, s => reMatches a prev s ++ [(prev, s, none)]
  | .rep n p, prev, s =>
    if n ≤ maxRun p s then
      let (pc, rest) := consumeN prev s n
      [(pc, rest, none)]
    else []
  | .atLeast n p, prev, s =>
    let run := maxRun p s
    if n ≤ run then
      (List.range (run - n + 1)).map fun i =>
        let (pc, rest) := consumeN prev s (run - i)
        (pc, rest, none)
    else []
  | .lazyPlus p, prev, s =>
    let run := maxRun p s
    (List.range run).map fun i =>
      let (pc, rest) := consumeN prev s (i + 1)
      (pc, rest, none)
  | .look a, prev, s =>
    if (reMatches a prev s).isEmpty then [] else [(prev, s, none)]
  | .wordB, prev, s =>
    if isWordOpt prev ≠ (match s with | c :: _ => pyWord c | [] => false) then
      [(prev, s, none)]
    else []
  | .eos, prev, s =>
    if s = [] ∨ s = ['\n'] then [(prev, s, none)] else []
  | .grp a, prev, s =>
    (reMatches a prev s).map fun (p', s', _) =>
      (p', s', some (s.take (s.length - s'.length)))

/-- `re.match(r, s)`: the chosen match at position 0, if any. -/
def reMatchHead (r : RE) (s : Str) : Option MRes := (reMatches r none s).head?

/-- Capture of group 1 of `re.match(r, s)` (for patterns carrying a `grp`). -/
def reMatchGrp (r : RE) (s : Str) : Option Str :=
  match reMatchHead r s with
  | some (_, _, g) => g
  | none => none

/-- Leftmost match scan (`re.search`): returns
`(prefix before the match, matched text, rest, group capture)`. -/
def reFindAux (r : RE) : Option Char → Str → Option (Str × Str × Str × Option Str)
  | prev, [] =>
    match (reMatches r prev []).head? with
    | some (_, _, g) => some ([], [], [], g)
    | none => none
  | prev, c :: cs =>
    match (reMatches r prev (c :: cs)).head? with
    | some (_, rest, g) =>
      some ([], (c :: cs).take ((c :: cs).length - rest.length), rest, g)
    | none =>
      (reFindAux r (some c) cs).map fun x => (c :: x.1, x.2.1, x.2.2.1, x.2.2.2)

/-- `re.search(r, s)` from the start of the string. -/
def reSearch (r : RE) (s : Str) : Option (Str × Str × Str × Option Str) :=
  reFindAux r none s

/-- `re.sub(r, repl, s)` (constant replacement).  Scanning context for `\b`
comes from the original text, so the recursion passes the last matched
character as `prev`.  None of the source's patterns can match the empty
string; if one did we stop substituting. -/
def reSubFuel (r : RE) (repl : Str) : Nat → Option Char → Str → Str
  | 0, _, s => s
  | Nat.succ n, prev, s =>
    match reFindAux r prev s with
    | none => s
    | some (pre, m, rest, _) =>
      match m.getLast? with
      | none => s
      | some c => pre ++ repl ++ reSubFuel r repl n (some c) rest

def reSub (r : RE) (repl : Str) (s : Str) : Str :=
  reSubFuel r repl (s.length + 1) none s

/-- `re.split(r, s)` (no capture groups in the separator pattern). -/
def reSplitFuel (r : RE) : Nat → Option Char → Str → List Str
  | 0, _, s => [s]
  | Nat.succ n, prev, s =>
    match reFindAux r prev s with
    | none => [s]
    | some (pre, m, rest, _) =>
      match m.getLast? with
      | none => [s]
      | some c => pre :: reSplitFuel r n (some c) rest

def reSplit (r : RE) (s : Str) : List Str :=
  reSplitFuel r (s.length + 1) none s

/-! ## The source's regular expressions -/

/-- `^[•\-\*]\s+` (transformations.py, bullet marker). -/
def P_bullet : RE :=
  .cat (.cls fun c => c = '•' || c = '-' || c = '*') (.atLeast 1 pySpace)

/-- `^\d+\.\s+`. -/
def P_numDot : RE :=
  .cat (.atLeast 1 pyDigit) (.cat (.lit ['.'] false) (.atLeast 1 pySpace))

/-- `^\d+\)\s+`. -/
def P_numParen : RE :=
  .cat (.atLeast 1 pyDigit) (.cat (.lit [')'] false) (.atLeast 1 pySpace))

/-- `^Q\d*[:\.]?\s*(.+)$` with `re.IGNORECASE` (transformations.py). -/
def P_q : RE :=
  .cat (.lit ['q'] true)
    (.cat (.atLeast 0 pyDigit)
      (.cat (.opt (.cls fun c => c = ':' || c = '.'))
        (.cat (.atLeast 0 pySpace)
          (.cat (.grp (.atLeast 1 fun c => c ≠ '\n')) .eos))))

/-- `^A\d*[:\.]?\s*(.+)$` with `re.IGNORECASE`. -/
def P_a : RE :=
  .cat (.lit ['a'] true)
    (.cat (.atLeast 0 pyDigit)
      (.cat (.opt (.cls fun c => c = ':' || c = '.'))
        (.cat (.atLeast 0 pySpace)
          (.cat (.grp (.atLeast 1 fun c => c ≠ '\n')) .eos))))

/-- `^Front:\s*(.+)$` with `re.IGNORECASE`. -/
def P_front : RE :=
  .cat (.lit "front:".data true)
    (.cat (.atLeast 0 pySpace)
      (.cat (.grp (.atLeast 1 fun c => c ≠ '\n')) .eos))

/-- `^Back:\s*(.+)$` with `re.IGNORECASE`. -/
def P_back : RE :=
  .cat (.lit "back:".data true)
    (.cat (.atLeast 0 pySpace)
      (.cat (.grp (.atLeast 1 fun c => c ≠ '\n')) .eos))

/-- `Front:\s*(.+?)(?=Back:|$)` with `re.IGNORECASE | re.DOTALL`. -/
def P_frontS : RE :=
  .cat (.lit "front:".data true)
    (.cat (.atLeast 0 pySpace)
      (.cat (.grp (.lazyPlus fun _ => true))
        (.look (.alt (.lit "back:".data true) .eos))))

/-- `Back:\s*(.+?)(?=Front:|$)` with `re.IGNORECASE | re.DOTALL`. -/
def P_backS : RE :=
  .cat (.lit "back:".data true)
    (.cat (.atLeast 0 pySpace)
      (.cat (.grp (.lazyPlus fun _ => true))
        (.look (.alt (.lit "front:".data true) .eos))))

/-- `[A-Za-z0-9._%+-]+@[A-Za-z0-9.-]+\.[A-Za-z]{2,}` (extractors.py, e-mail). -/
def emailLocal (c : Char) : Bool :=
  c.isAlphanum || c = '.' || c = '_' || c = '%' || c = '+' || c = '-'

def emailDomain (c : Char) : Bool :=
  c.isAlphanum || c = '.' || c = '-'

def P_email : RE :=
  .cat (.atLeast 1 emailLocal)
    (.cat (.lit ['@'] false)
      (.cat (.atLeast 1 emailDomain)
        (.cat (.lit ['.'] false) (.atLeast 2 Char.isAlpha))))

/-- `(?:\+?1[-.\s]?)?(?:\(?\d{3}\)?[-.\s]?)?\d{3}[-.\s]?\d{4}` (phone). -/
def phoneSep (c : Char) : Bool := c = '-' || c = '.' || pySpace c

def P_phone : RE :=
  .cat (.opt (.cat (.opt (.lit ['+'] false))
               (.cat (.lit ['1'] false) (.opt (.cls phoneSep)))))
    (.cat (.opt (.cat (.opt (.lit ['('] false))
                  (.cat (.rep 3 pyDigit)
                    (.cat (.opt (.lit [')'] false)) (.opt (.cls phoneSep))))))
      (.cat (.rep 3 pyDigit)
        (.cat (.opt (.cls phoneSep)) (.rep 4 pyDigit))))

/-- `\b\d{3}-\d{2}-\d{4}\b` (US SSN). -/
def P_ssn : RE :=
  .cat .wordB
    (.cat (.rep 3 pyDigit)
      (.cat (.lit ['-'] false)
        (.cat (.rep 2 pyDigit)
          (.cat (.lit ['-'] false)
            (.cat (.rep 4 pyDigit) .wordB)))))

/-- `\n\s*\n+` (extractors.py, paragraph separator for OCR chunking). -/
def P_parasep : RE :=
  .cat (.cls fun c => c = '\n') (.cat (.atLeast 0 pySpace) (.atLeast 1 fun c => c = '\n'))

/-! ## transformations.py — the structured parsing engine -/

/-- `re.sub(r'^pat', '', line)`: with a `^`-anchored pattern the substitution
can only remove the leading match. -/
def reMatchStrip (r : RE) (s : Str) : Str :=
  match reMatchHead r s with
  | some (_, rest, _) => rest
  | none => s

/-- Python's binary `min`/`max` on rationals. -/
def pyMin (a b : ℚ) : ℚ := if a ≤ b then a else b

def pyMax (a b : ℚ) : ℚ := if b ≤ a then a else b

/-! Batteries marks the field operations of `ℚ` `@[irreducible]`, which blocks
kernel evaluation; the following arithmetic helpers are kernel-reducible and
are proved equal to `/`, `*` and `+` in `ratDiv_eq`/`ratMul_eq`/`ratAdd_eq`. -/

/-- `a / b` on `ℚ` (kernel-reducible form). -/
def ratDiv (a b : ℚ) : ℚ := Rat.divInt (a.num * b.den) (a.den * b.num)

/-- `a * b` on `ℚ` (kernel-reducible form). -/
def ratMul (a b : ℚ) : ℚ := Rat.divInt (a.num * b.num) (a.den * b.den)

/-- `a + b` on `ℚ` (kernel-reducible form). -/
def ratAdd (a b : ℚ) : ℚ := Rat.divInt (a.num * b.den + b.num * a.den) (a.den * b.den)

theorem ratDiv_eq (a b : ℚ) : ratDiv a b = a / b := by
  rcases eq_or_ne b 0 with rb | rb
  · subst rb
    simp [ratDiv, Rat.divInt_eq_div]
  · have had : ((a.den : ℚ)) ≠ 0 := by exact_mod_cast a.den_nz
    have hbd : ((b.den : ℚ)) ≠ 0 := by exact_mod_cast b.den_nz
    have hbn : ((b.num : ℚ)) ≠ 0 := by exact_mod_cast Rat.num_ne_zero.mpr rb
    rw [ratDiv, Rat.divInt_eq_div]
    push_cast
    conv_rhs => rw [← Rat.num_div_den a, ← Rat.num_div_den b]
    field_simp

theorem ratMul_eq (a b : ℚ) : ratMul a b = a * b := by
  rw [ratMul, Rat.divInt_eq_div]
  push_cast
  conv_rhs => rw [← Rat.num_div_den a, ← Rat.num_div_den b]
  rw [div_mul_div_comm]

theorem ratAdd_eq (a b : ℚ) : ratAdd a b = a + b := by
  have had : ((a.den : ℚ)) ≠ 0 := by exact_mod_cast a.den_nz
  have hbd : ((b.den : ℚ)) ≠ 0 := by exact_mod_cast b.den_nz
  rw [ratAdd, Rat.divInt_eq_div]
  push_cast
  conv_rhs => rw [← Rat.num_div_den a, ← Rat.num_div_den b]
  rw [div_add_div _ _ had hbd]
  ring_nf

/-- Python `round(q, 2)` on the rational values reachable in this code
(ties-away rounding differences are not reachable): `⌊q·100 + 1/2⌋ / 100`. -/
def round2 (q : ℚ) : ℚ :=
  Rat.divInt (ratAdd (ratMul q 100) (Rat.divInt 1 2)).floor 100

/-- Result record of `parse_summary_response`. -/
structure SummaryResult where
  summary : String
  key_points : List String
  confidence_score : ℚ
deriving DecidableEq, Repr

/-- `parse_summary_response` (transformations.py lines 38-72). -/
def parse_summary_response (s : String) : SummaryResult :=
  let raw := s.data
  let stripped := pyStrip raw
  let lines := ((splitChar '\n' stripped).map pyStrip).filter (· ≠ [])
  let bulletPats := [P_bullet, P_numDot, P_numParen]
  let fromBullets := lines.filterMap fun line =>
    match bulletPats.find? fun p => (reMatchHead p line).isSome with
    | some p =>
      let clean := pyStrip (reMatchStrip p line)
      if clean = [] then none else some clean
    | none => none
  let key_points :=
    if fromBullets = [] then
      (((splitChar '.' raw).map pyStrip).filter (· ≠ [])).take 4
    else fromBullets
  let conf := pyMin 1 (pyMax (Rat.divInt 3 10) (ratDiv (key_points.length : ℚ) 4))
  let conf := if stripped.length < 50 then ratMul conf (Rat.divInt 7 10) else conf
  { summary := String.mk stripped
    key_points := (key_points.take 4).map String.mk
    confidence_score := round2 conf }

/-- Python truthiness of an optional string variable. -/
def isTruthy : Option Str → Bool
  | some s => s ≠ []
  | none => false

structure QaPair where
  question : String
  answer : String
deriving DecidableEq, Repr

structure QaResult where
  qa_pairs : List QaPair
  question : String
  answer : String
  confidence_score : ℚ
deriving DecidableEq, Repr

/-- One iteration of the line loop of `parse_qa_response`
(state: current question, current answer, emitted pairs). -/
def qaStep (st : Option Str × Option Str × List (Str × Str)) (rawLine : Str) :
    Option Str × Option Str × List (Str × Str) :=
  let (curQ, curA, pairs) := st
  let line := pyStrip rawLine
  if line = [] then st
  else
    match reMatchHead P_q line with
    | some (_, _, g) =>
      let pairs' :=
        if isTruthy curQ && isTruthy curA then
          pairs ++ [(pyStrip (curQ.getD []), pyStrip (curA.getD []))]
        else pairs
      (some (g.getD []), none, pairs')
    | none =>
      match reMatchHead P_a line with
      | some (_, _, g) => (curQ, some (g.getD []), pairs)
      | none =>
        if isTruthy curQ && !isTruthy curA then (curQ, some line, pairs)
        else if isTruthy curQ && isTruthy curA then
          (curQ, some (curA.getD [] ++ ' ' :: line), pairs)
        else st

/-- The structured line scan of `parse_qa_response` (before the fallback). -/
def qaScanPairs (s : String) : List (Str × Str) :=
  let lines := splitChar '\n' (pyStrip s.data)
  let (q, a, pairs) := lines.foldl qaStep (none, none, [])
  if isTruthy q && isTruthy a then
    pairs ++ [(pyStrip (q.getD []), pyStrip (a.getD []))]
  else pairs

/-- `parse_qa_response` (transformations.py lines 84-150). -/
def parse_qa_response (s : String) : QaResult :=
  let scanned := qaScanPairs s
  let strippedAll := pyStrip s.data
  let qa_pairs :=
    if scanned = [] ∧ strippedAll ≠ [] then
      let parts := splitSubstr ['\n', '\n'] strippedAll
      if 2 ≤ parts.length then
        [(pyStrip (parts.getD 0 []), pyStrip (parts.getD 1 []))]
      else []
    else scanned
  let conf := if qa_pairs ≠ [] then pyMin 1 (ratDiv (qa_pairs.length : ℚ) 3) else Rat.divInt 3 10
  { qa_pairs := (qa_pairs.take 6).map fun p => ⟨String.mk p.1, String.mk p.2⟩
    question :=
      match qa_pairs.head? with
      | some p => String.mk p.1
      | none => "No question available"
    answer :=
      match qa_pairs.head? with
      | some p => String.mk p.2
      | none => "No answer available"
    confidence_score := round2 conf }

structure Card where
  front : String
  back : String
  difficulty : String
  category : String
deriving DecidableEq, Repr

structure FlashResult where
  cards : List Card
  front : String
  back : String
  difficulty : String
  category : String
  total_cards : Nat
deriving DecidableEq, Repr

/-- Difficulty heuristic of `parse_flashcard_response`. -/
def cardDifficulty (f b : Str) : String :=
  if f.length < 30 ∧ b.length < 50 then "easy"
  else if 80 < f.length ∨ 150 < b.length then "hard"
  else "medium"

/-- Front/back extraction from one double-newline-separated block. -/
def flashBlockCard (block : Str) : Option (Str × Str) :=
  let lines := ((splitChar '\n' block).map pyStrip).filter (· ≠ [])
  let fb := lines.foldl
    (fun (st : Option Str × Option Str) line =>
      let (front, back) := st
      match reMatchHead P_front line with
      | some (_, _, g) => (some (pyStrip (g.getD [])), back)
      | none =>
        match reMatchHead P_back line with
        | some (_, _, g) => (front, some (pyStrip (g.getD [])))
        | none =>
          if isTruthy front && !isTruthy back &&
              !pyStartsWith "back:".data (lowerS line) then
            (front, some (pyStrip line))
          else st)
    (none, none)
  if isTruthy fb.1 && isTruthy fb.2 then some (fb.1.getD [], fb.2.getD []) else none

/-- The full (uncapped) card list built by `parse_flashcard_response`,
including its two fallbacks (transformations.py lines 162-239). -/
def flashCardsAll (s : String) : List Card :=
  let blocks := splitSubstr ['\n', '\n'] (pyStrip s.data)
  let structured : List Card := blocks.filterMap fun blk =>
    (flashBlockCard blk).map fun fb =>
      ⟨String.mk fb.1, String.mk fb.2, cardDifficulty fb.1 fb.2, "general"⟩
  let withSearch :=
    if structured = [] then
      match reSearch P_frontS s.data, reSearch P_backS s.data with
      | some (_, _, _, gf), some (_, _, _, gb) =>
        [⟨String.mk (pyStrip (gf.getD [])), String.mk (pyStrip (gb.getD [])),
          "medium", "general"⟩]
      | _, _ => []
    else structured
  if withSearch = [] ∧ pyStrip s.data ≠ [] then
    let contentLines :=
      ((splitChar '\n' (pyStrip s.data)).map pyStrip).filter (· ≠ [])
    if 2 ≤ contentLines.length then
      let mid := contentLines.length / 2
      [⟨String.mk (joinSep [' '] (contentLines.take mid)),
        String.mk (joinSep [' '] (contentLines.drop mid)), "medium", "general"⟩]
    else []
  else withSearch

/-- `parse_flashcard_response` (transformations.py lines 162-248). -/
def parse_flashcard_response (s : String) : FlashResult :=
  let cards := flashCardsAll s
  { cards := cards.take 8
    front :=
      match cards.head? with
      | some c => c.front
      | none => "No question available"
    back :=
      match cards.head? with
      | some c => c.back
      | none => "No answer available"
    difficulty :=
      match cards.head? with
      | some c => c.difficulty
      | none => "medium"
    category :=
      match cards.head? with
      | some c => c.category
      | none => "general"
    total_cards := cards.length }

/-! ## extractors.py — extraction adapters -/

/-- Metadata dictionary fragment carried by chunks (`KnowledgeChunk.metadata`).
Only the string-valued keys the pipeline reads (`mime`, `title`) plus `tags`
are given fields; other keys live in `extra`. -/
structure Meta where
  mime : Option String := none
  title : Option String := none
  tags : List String := []
  extra : List (String × String) := []
deriving DecidableEq, Repr

/-- `KnowledgeChunk` (ingestion/models.py). -/
structure KnowledgeChunk where
  text : String
  source_type : String
  source_uri : Option String := none
  metadata : Meta := {}
deriving DecidableEq, Repr

/-- `os.getenv("INGESTION_REDACT_PII", "false").lower() in {"1","true","yes"}`. -/
def redactEnabled (flag : String) : Bool :=
  lowerS flag.data = "1".data || lowerS flag.data = "true".data ||
    lowerS flag.data = "yes".data

/-- The three ordered substitutions of `redact_pii` (extractors.py 41-55),
applied unconditionally. -/
def redactPII (s : Str) : Str :=
  reSub P_ssn "[REDACTED_SSN]".data
    (reSub P_phone "[REDACTED_PHONE]".data
      (reSub P_email "[REDACTED_EMAIL]".data s))

/-- `redact_pii(text)` with the `INGESTION_REDACT_PII` value made explicit. -/
def redact_pii (flag : String) (text : Str) : Str :=
  if redactEnabled flag then redactPII text else text

/-- Paragraph split of the OCR output:
`[p.strip() for p in re.split(r"\n\s*\n+", full_text) if p.strip()]`. -/
def ocrParagraphs (fullText : Str) : List Str :=
  ((reSplit P_parasep fullText).map pyStrip).filter (· ≠ [])

/-- The OCR path of `extract_text_from_image` (extractors.py 105-137), as a
function of the raw `pytesseract` output. -/
def extract_text_from_image_ocr (flag : String) (filePath : String)
    (ocrRaw : String) : List KnowledgeChunk :=
  let fullText := redact_pii flag (pyStrip ocrRaw.data)
  let meta : Meta :=
    { extra := [("source_type", "image"), ("source_uri", filePath), ("provider", "ocr")] }
  let chunks := (ocrParagraphs fullText).map fun para =>
    ⟨String.mk para, "image", some filePath, meta⟩
  if chunks.isEmpty then [⟨String.mk fullText, "image", some filePath, meta⟩]
  else chunks

/-- Failure modes of `transcribe_audio_to_text`. -/
inductive AsrError where
  | geminiKeyMissing
  | geminiRequestFailed
  | openaiKeyMissing
  | openaiRequestFailed
  | noTranscriptionAvailable
deriving DecidableEq, Repr

/-- Environment of `transcribe_audio_to_text`: which API keys are configured
and what each provider call would produce (`none` = the call raises). -/
structure AsrEnv where
  geminiKey : Bool
  openaiKey : Bool
  whisperOutcome : Option (List KnowledgeChunk)
  openaiOutcome : Option KnowledgeChunk
  geminiOutcome : Option KnowledgeChunk
deriving DecidableEq, Repr

/-- The Gemini branch of `transcribe_audio_to_text` (extractors.py 148-188). -/
def geminiBranch (env : AsrEnv) : Except AsrError (List KnowledgeChunk) :=
  if !env.geminiKey then .error .geminiKeyMissing
  else
    match env.geminiOutcome with
    | some c => .ok [c]
    | none => .error .geminiRequestFailed

/-- The OpenAI branch of `transcribe_audio_to_text` (extractors.py 190-221). -/
def openaiBranch (env : AsrEnv) : Except AsrError (List KnowledgeChunk) :=
  if !env.openaiKey then .error .openaiKeyMissing
  else
    match env.openaiOutcome with
    | some c => .ok [c]
    | none => .error .openaiRequestFailed

/-- `transcribe_audio_to_text` (extractors.py 140-269).  The source's
recursive calls `transcribe_audio_to_text(file_path, "openai"/"gemini")`
evaluate to exactly the corresponding provider branch. -/
def transcribe_audio_to_text (env : AsrEnv) (provider : String) :
    Except AsrError (List KnowledgeChunk) :=
  let p := lowerS (if provider.data = [] then "whisper".data else provider.data)
  if p = "gemini".data ∨ p = "google".data ∨ p = "google-genai".data then
    geminiBranch env
  else if p = "openai".data ∨ p = "openai-whisper".data ∨ p = "openai-api".data ∨
      p = "openai-whisper-api".data then
    openaiBranch env
  else
    match env.whisperOutcome with
    | some chunks =>
      -- faster-whisper succeeded: return its chunks, else fall to the final raise
      if chunks ≠ [] then .ok chunks else .error .noTranscriptionAvailable
    | none =>
      -- faster-whisper raised: fall back per configured keys
      if env.openaiKey then openaiBranch env
      else if env.geminiKey then geminiBranch env
      else .error .noTranscriptionAvailable

/-! ## pipeline.py — dual-write persistence -/

/-- Control characters stripped by `_normalize_text`:
`[\x00-\x08\x0B\x0C\x0E-\x1F\x7F]`. -/
def ctrlChar (c : Char) : Bool :=
  c.toNat ≤ 0x08 || c.toNat = 0x0b || c.toNat = 0x0c ||
    (0x0e ≤ c.toNat && c.toNat ≤ 0x1f) || c.toNat = 0x7f

/-- `_normalize_text` (pipeline.py 13-19). -/
def normalize_text (s : Str) : Str :=
  pyStrip (reSub (.atLeast 1 pySpace) [' '] (reSub (.cls ctrlChar) [] s))

inductive FeedKind where
  | chunk
  | summary
  | qa
  | flashcard
  | research
deriving DecidableEq, Repr

structure SourceRow where
  id : Nat
  notebook_id : Nat
  type : String
  uri : String
  mime : Option String
  title : Option String
  tags : List String
deriving DecidableEq, Repr

structure ChunkRow where
  id : Nat
  notebook_id : Nat
  source_id : Option Nat
  text : String
deriving DecidableEq, Repr

structure FeedRow where
  id : Nat
  notebook_id : Nat
  kind : FeedKind
  ref_id : Nat
  created_at : Nat
deriving DecidableEq, Repr

/-- Relational store state (committed rows and autoincrement counters). -/
structure Db where
  sources : List SourceRow := []
  chunks : List ChunkRow := []
  feeds : List FeedRow := []
  nextSourceId : Nat := 1
  nextChunkId : Nat := 1
  nextFeedId : Nat := 1
deriving DecidableEq, Repr

/-- Outcome of the `LightRAGStore.insert` call as observed by the pipeline:
success with ids, a `RuntimeError` (whose message may or may not contain the
`"LightRAG library bug"` marker), or any other exception. -/
inductive RagOutcome where
  | ok (ids : List String)
  | runtimeError (msgHasBugMarker : Bool)
  | otherError
deriving DecidableEq, Repr

/-- Source-resolution cache key: `(notebook_id, nk.source_type, nk.source_uri or "")`. -/
abbrev SrcKey := Option Nat × String × String

/-- `source_id_cache.get(key)` (first binding of the key). -/
def cacheLookup (cache : List (SrcKey × Nat)) (key : SrcKey) : Option Nat :=
  (cache.find? fun kv => kv.1 = key).map (·.2)

/-- The cache key of a chunk. -/
def chunkKey (notebook_id : Option Nat) (nk : KnowledgeChunk) : SrcKey :=
  (notebook_id, nk.source_type, nk.source_uri.getD "")

/-- The guard `notebook_id is not None and nk.source_uri` of the source
resolution (pipeline.py 54). -/
def srcGuard (notebook_id : Option Nat) (nk : KnowledgeChunk) : Bool :=
  notebook_id.isSome && isTruthy (nk.source_uri.map String.data)

/-- Source resolution for one chunk (pipeline.py 52-76): consult the cache;
on a miss, if the guard holds, find or create the `Source` row and record the
id in the cache. -/
def resolveSource (notebook_id : Option Nat) (db : Db)
    (cache : List (SrcKey × Nat)) (nk : KnowledgeChunk) :
    Option Nat × Db × List (SrcKey × Nat) :=
  let key := chunkKey notebook_id nk
  match cacheLookup cache key with
  | some v => (some v, db, cache)
  | none =>
    -- `if src_id is None and notebook_id is not None and nk.source_uri:`
    if srcGuard notebook_id nk then
      let nb := notebook_id.getD 0
      let uri := nk.source_uri.getD ""
      match db.sources.find? (fun (r : SourceRow) =>
          r.notebook_id == nb && r.type == nk.source_type && r.uri == uri) with
      | some row => (some row.id, db, cache ++ [(key, row.id)])
      | none =>
        let newSrc : SourceRow :=
          ⟨db.nextSourceId, nb, nk.source_type, uri,
            nk.metadata.mime, nk.metadata.title, nk.metadata.tags⟩
        (some newSrc.id,
          { db with sources := db.sources ++ [newSrc],
                    nextSourceId := db.nextSourceId + 1 },
          cache ++ [(key, newSrc.id)])
    else (none, db, cache)

/-- One iteration of the chunk-persistence loop of `ingest_chunks`
(pipeline.py 51-96).  State: the store and the per-call source cache. -/
def ingestStep (notebook_id : Option Nat) (st : Db × List (SrcKey × Nat))
    (nk : KnowledgeChunk) : Db × List (SrcKey × Nat) :=
  let (srcId, db, cache) := resolveSource notebook_id st.1 st.2 nk
  let chunkRow : ChunkRow :=
    ⟨db.nextChunkId, notebook_id.getD 0, srcId, nk.text⟩
  let db := { db with chunks := db.chunks ++ [chunkRow],
                      nextChunkId := db.nextChunkId + 1 }
  let feedRow : FeedRow :=
    ⟨db.nextFeedId, notebook_id.getD 0, .chunk, chunkRow.id, 0⟩
  let db := { db with feeds := db.feeds ++ [feedRow],
                      nextFeedId := db.nextFeedId + 1 }
  (db, cache)

/-- `ingest_chunks` (pipeline.py 22-118), with the LightRAG insert outcome as
an explicit input.  Each loop iteration commits its rows, so on the re-raise
path the rows stay committed while the call errors. -/
def ingest_chunks (rag : RagOutcome) (notebook_id : Option Nat) (db : Db)
    (chunks : List KnowledgeChunk) : Db × Except String (List String) :=
  let normalized := chunks.map fun c =>
    { c with text := String.mk (normalize_text c.text.data) }
  let dbF := (normalized.foldl (ingestStep notebook_id) (db, [])).1
  let placeholders := (List.range normalized.length).map fun i =>
    "db_chunk_" ++ toString i
  match rag with
  | .ok ids => (dbF, .ok ids)
  | .runtimeError true => (dbF, .ok placeholders)
  | .runtimeError false => (dbF, .error "re-raised RuntimeError")
  | .otherError => (dbF, .ok placeholders)

/-! ## routers/knowledge.py — feed listing -/

/-- Insert into a list sorted by `created_at` descending. -/
def insertDesc (r : FeedRow) : List FeedRow → List FeedRow
  | [] => [r]
  | x :: xs =>
    if r.created_at ≤ x.created_at then x :: insertDesc r xs
    else r :: x :: xs

/-- `ORDER BY created_at DESC` (tie order is unspecified in the source). -/
def sortByCreatedDesc (l : List FeedRow) : List FeedRow :=
  l.foldl (fun acc r => insertDesc r acc) []

/-- `get_feed` (routers/knowledge.py 50-104) over a resolved notebook:
filter by notebook, optional kind, `id > cursor`; order by `created_at`
descending; take `limit`; `next_cursor = items[-1].id if items else None`. -/
def get_feed (rows : List FeedRow) (notebook_id : Nat) (cursor : Nat)
    (limit : Nat) (kindFilter : Option FeedKind) :
    List FeedRow × Option Nat :=
  let q := rows.filter fun r =>
    r.notebook_id == notebook_id && cursor < r.id &&
      (match kindFilter with
       | some k => r.kind == k
       | none => true)
  let items := (sortByCreatedDesc q).take limit
  (items, items.getLast?.map (·.id))

/-! ## Lemmas about the source cache and per-chunk source assignment -/

theorem cacheLookup_append_of_some {cache : List (SrcKey × Nat)} {k : SrcKey} {v : Nat}
    (h : cacheLookup cache k = some v) (l : List (SrcKey × Nat)) :
    cacheLookup (cache ++ l) k = some v := by
  unfold cacheLookup at h ⊢
  rcases hf : cache.find? (fun kv => kv.1 = k) with _ | e
  · rw [hf] at h; simp at h
  · rw [List.find?_append, hf, Option.or_some]
    rw [hf] at h
    exact h

theorem cacheLookup_append_self {cache : List (SrcKey × Nat)} {k : SrcKey} {v : Nat}
    (h : cacheLookup cache k = none) :
    cacheLookup (cache ++ [(k, v)]) k = some v := by
  unfold cacheLookup at h ⊢
  rw [List.find?_append, Option.map_eq_none'.mp h, Option.none_or]
  simp [List.find?]

theorem cacheLookup_append_single_ne_none {cache : List (SrcKey × Nat)} {k k' : SrcKey} {v : Nat}
    (h : cacheLookup (cache ++ [(k, v)]) k' ≠ none) :
    cacheLookup cache k' ≠ none ∨ k' = k := by
  unfold cacheLookup at h ⊢
  rcases hf : cache.find? (fun kv => kv.1 = k') with _ | e
  · rw [List.find?_append, hf, Option.none_or] at h
    right
    by_cases hk : k = k'
    · exact hk.symm
    · exfalso
      apply h
      simp [List.find?, hk]
  · left
    simp [hf]

theorem filter_length_le_one_of_pairwise {α : Type} {l : List α} {p : α → Bool}
    (h : l.Pairwise fun a b => p a = true → p b = true → False) :
    (l.filter p).length ≤ 1 := by
  induction l with
  | nil => simp
  | cons a t ih =>
    rw [List.pairwise_cons] at h
    obtain ⟨ha, ht⟩ := h
    by_cases hp : p a
    · have hnil : t.filter p = [] := by
        rw [List.filter_eq_nil_iff]
        intro b hb hpb
        exact ha b hb hp hpb
      rw [List.filter_cons_of_pos hp, hnil]
      simp
    · rw [List.filter_cons_of_neg (by simpa using hp)]
      exact ih ht

/-- The guard of the source resolution depends only on the cache key. -/
def keyGuard (k : SrcKey) : Bool := k.1.isSome && decide (k.2.2 ≠ "")

theorem srcGuard_eq_keyGuard (nb : Option Nat) (nk : KnowledgeChunk) :
    srcGuard nb nk = keyGuard (chunkKey nb nk) := by
  unfold srcGuard keyGuard chunkKey isTruthy
  rcases h : nk.source_uri with _ | s
  · simp
  · rcases s with ⟨d⟩
    rcases d with _ | ⟨c, cs⟩ <;> simp [String.ext_iff]

/-- Relation between a processed chunk and its persisted row: its `source_id`
is the cached id of its key when the guard holds, and `None` otherwise. -/
def RowOK (nb : Option Nat) (cache : List (SrcKey × Nat)) (nk : KnowledgeChunk)
    (row : ChunkRow) : Prop :=
  if keyGuard (chunkKey nb nk) then
    ∃ v, cacheLookup cache (chunkKey nb nk) = some v ∧ row.source_id = some v
  else row.source_id = none

theorem RowOK_mono {nb : Option Nat} {cache : List (SrcKey × Nat)}
    {nk : KnowledgeChunk} {row : ChunkRow} (ext : List (SrcKey × Nat))
    (h : RowOK nb cache nk row) : RowOK nb (cache ++ ext) nk row := by
  unfold RowOK at h ⊢
  split at h
  · obtain ⟨v, hv, hrow⟩ := h
    rw [if_pos (by assumption)]
    exact ⟨v, cacheLookup_append_of_some hv ext, hrow⟩
  · rw [if_neg (by assumption)]
    exact h


/-- Loop invariant of `ingest_chunks`: the cache holds only guard-satisfying
keys, sources grew by rows with pairwise-distinct cached keys, and every
processed chunk's row satisfies `RowOK`. -/
structure IngestInv (nb : Option Nat) (db0 : Db) (done : List KnowledgeChunk)
    (st : Db × List (SrcKey × Nat)) : Prop where
  cachedGuard : ∀ k, cacheLookup st.2 k ≠ none → keyGuard k = true
  sources : ∃ ns : List SourceRow, st.1.sources = db0.sources ++ ns ∧
    (∀ r ∈ ns, cacheLookup st.2 (nb, r.type, r.uri) ≠ none) ∧
    ns.Pairwise fun r1 r2 => ((nb, r1.type, r1.uri) : SrcKey) ≠ (nb, r2.type, r2.uri)
  rowsOK : ∃ rows : List ChunkRow, st.1.chunks = db0.chunks ++ rows ∧
    List.Forall₂ (RowOK nb st.2) done rows

theorem ingestStep_inv (nb : Option Nat) (db0 : Db) (done : List KnowledgeChunk)
    (st : Db × List (SrcKey × Nat)) (c : KnowledgeChunk)
    (h : IngestInv nb db0 done st) :
    IngestInv nb db0 (done ++ [c]) (ingestStep nb st c) := by
  obtain ⟨hI1, ⟨ns, hns, hnsl, hnsp⟩, ⟨rows, hrows, hR⟩⟩ := h
  rcases hv : cacheLookup st.2 (chunkKey nb c) with _ | v
  · by_cases hg : srcGuard nb c = true
    · rcases hf : st.1.sources.find? (fun r =>
          r.notebook_id == nb.getD 0 && r.type == c.source_type &&
            r.uri == c.source_uri.getD "") with _ | row
      · -- cache miss, guard holds, no existing source row: a new one is created
        have hres : resolveSource nb st.1 st.2 c =
            (some st.1.nextSourceId,
             { st.1 with
                 sources := st.1.sources ++
                   [⟨st.1.nextSourceId, nb.getD 0, c.source_type, c.source_uri.getD "",
                     c.metadata.mime, c.metadata.title, c.metadata.tags⟩],
                 nextSourceId := st.1.nextSourceId + 1 },
             st.2 ++ [(chunkKey nb c, st.1.nextSourceId)]) := by
          simp only [resolveSource]
          rw [hv, if_pos hg, hf]
        have hkg : keyGuard (chunkKey nb c) = true := by
          rw [← srcGuard_eq_keyGuard]; exact hg
        refine ⟨?_, ?_, ?_⟩
        · intro k hk
          simp only [ingestStep, hres] at hk
          rcases cacheLookup_append_single_ne_none hk with hold | hkeq
          · exact hI1 k hold
          · rw [hkeq]; exact hkg
        · refine ⟨ns ++ [⟨st.1.nextSourceId, nb.getD 0, c.source_type, c.source_uri.getD "",
              c.metadata.mime, c.metadata.title, c.metadata.tags⟩], ?_, ?_, ?_⟩
          · simp only [ingestStep, hres]
            rw [hns, List.append_assoc]
          · intro r hr
            simp only [ingestStep, hres]
            rcases List.mem_append.mp hr with hrr | hrr
            · rcases Option.ne_none_iff_exists'.mp (hnsl r hrr) with ⟨w, hw⟩
              rw [cacheLookup_append_of_some hw]
              simp
            · simp only [List.mem_singleton] at hrr
              subst hrr
              have hkey : ((nb, c.source_type, c.source_uri.getD "") : SrcKey) =
                  chunkKey nb c := rfl
              simp only [hkey]
              rw [cacheLookup_append_self hv]
              simp
          · rw [List.pairwise_append]
            refine ⟨hnsp, by simp, ?_⟩
            intro r1 hr1 r2 hr2
            simp only [List.mem_singleton] at hr2
            subst hr2
            intro hkeys
            apply hnsl r1 hr1
            have : ((nb, r1.type, r1.uri) : SrcKey) = chunkKey nb c := by
              rw [hkeys]; rfl
            rw [this, hv]
        · refine ⟨rows ++ [⟨st.1.nextChunkId, nb.getD 0, some st.1.nextSourceId, c.text⟩],
            ?_, ?_⟩
          · simp only [ingestStep, hres]
            rw [hrows, List.append_assoc]
          · simp only [ingestStep, hres]
            refine List.rel_append (hR.imp fun a b hab => RowOK_mono _ hab) ?_
            refine List.forall₂_cons.mpr ⟨?_, List.Forall₂.nil⟩
            unfold RowOK
            rw [if_pos hkg]
            exact ⟨st.1.nextSourceId, cacheLookup_append_self hv, rfl⟩
      · -- cache miss, guard holds, an existing source row is reused
        have hres : resolveSource nb st.1 st.2 c =
            (some row.id, st.1, st.2 ++ [(chunkKey nb c, row.id)]) := by
          simp only [resolveSource]
          rw [hv, if_pos hg, hf]
        have hkg : keyGuard (chunkKey nb c) = true := by
          rw [← srcGuard_eq_keyGuard]; exact hg
        refine ⟨?_, ?_, ?_⟩
        · intro k hk
          simp only [ingestStep, hres] at hk
          rcases cacheLookup_append_single_ne_none hk with hold | hkeq
          · exact hI1 k hold
          · rw [hkeq]; exact hkg
        · refine ⟨ns, ?_, ?_, hnsp⟩
          · simp only [ingestStep, hres]
            exact hns
          · intro r hr
            simp only [ingestStep, hres]
            rcases Option.ne_none_iff_exists'.mp (hnsl r hr) with ⟨w, hw⟩
            rw [cacheLookup_append_of_some hw]
            simp
        · refine ⟨rows ++ [⟨st.1.nextChunkId, nb.getD 0, some row.id, c.text⟩], ?_, ?_⟩
          · simp only [ingestStep, hres]
            rw [hrows, List.append_assoc]
          · simp only [ingestStep, hres]
            refine List.rel_append (hR.imp fun a b hab => RowOK_mono _ hab) ?_
            refine List.forall₂_cons.mpr ⟨?_, List.Forall₂.nil⟩
            unfold RowOK
            rw [if_pos hkg]
            exact ⟨row.id, cacheLookup_append_self hv, rfl⟩
    · -- cache miss, guard fails: no source, no cache change
      have hres : resolveSource nb st.1 st.2 c = (none, st.1, st.2) := by
        simp only [resolveSource]
        rw [hv, if_neg hg]
      have hkg : keyGuard (chunkKey nb c) = false := by
        rw [← srcGuard_eq_keyGuard]
        exact Bool.not_eq_true _ |>.mp hg
      refine ⟨?_, ?_, ?_⟩
      · intro k hk
        simp only [ingestStep, hres] at hk
        exact hI1 k hk
      · refine ⟨ns, ?_, ?_, hnsp⟩
        · simp only [ingestStep, hres]
          exact hns
        · intro r hr
          simp only [ingestStep, hres]
          exact hnsl r hr
      · refine ⟨rows ++ [⟨st.1.nextChunkId, nb.getD 0, none, c.text⟩], ?_, ?_⟩
        · simp only [ingestStep, hres]
          rw [hrows, List.append_assoc]
        · simp only [ingestStep, hres]
          refine List.rel_append hR ?_
          refine List.forall₂_cons.mpr ⟨?_, List.Forall₂.nil⟩
          unfold RowOK
          rw [if_neg (by simp [hkg])]
  · -- cache hit
    have hres : resolveSource nb st.1 st.2 c = (some v, st.1, st.2) := by
      simp only [resolveSource]
      rw [hv]
    have hkg : keyGuard (chunkKey nb c) = true := by
      apply hI1
      rw [hv]
      simp
    refine ⟨?_, ?_, ?_⟩
    · intro k hk
      simp only [ingestStep, hres] at hk
      exact hI1 k hk
    · refine ⟨ns, ?_, ?_, hnsp⟩
      · simp only [ingestStep, hres]
        exact hns
      · intro r hr
        simp only [ingestStep, hres]
        exact hnsl r hr
    · refine ⟨rows ++ [⟨st.1.nextChunkId, nb.getD 0, some v, c.text⟩], ?_, ?_⟩
      · simp only [ingestStep, hres]
        rw [hrows, List.append_assoc]
      · simp only [ingestStep, hres]
        refine List.rel_append hR ?_
        refine List.forall₂_cons.mpr ⟨?_, List.Forall₂.nil⟩
        unfold RowOK
        rw [if_pos hkg]
        exact ⟨v, hv, rfl⟩

theorem ingestInv_init (nb : Option Nat) (db : Db) : IngestInv nb db [] (db, []) := by
  refine ⟨?_, ⟨[], by simp, by simp, List.Pairwise.nil⟩, ⟨[], by simp, List.Forall₂.nil⟩⟩
  intro k hk
  simp [cacheLookup] at hk

theorem ingestLoop_inv (nb : Option Nat) (db0 : Db) (pending : List KnowledgeChunk) :
    ∀ (done : List KnowledgeChunk) (st : Db × List (SrcKey × Nat)),
      IngestInv nb db0 done st →
      IngestInv nb db0 (done ++ pending) (pending.foldl (ingestStep nb) st) := by
  induction pending with
  | nil => intro done st h; simpa using h
  | cons c cs ih =>
    intro done st h
    have h2 := ih (done ++ [c]) (ingestStep nb st c) (ingestStep_inv nb db0 done st c h)
    simpa [List.append_assoc] using h2

theorem ingest_chunks_db_eq (rag : RagOutcome) (nb : Option Nat) (db : Db)
    (batch : List KnowledgeChunk) :
    (ingest_chunks rag nb db batch).1 =
      ((batch.map fun c => { c with text := String.mk (normalize_text c.text.data) }).foldl
        (ingestStep nb) (db, [])).1 := by
  rcases rag with ids | m | _
  · rfl
  · rcases m <;> rfl
  · rfl

theorem ingest_chunks_inv (rag : RagOutcome) (nb : Option Nat) (db : Db)
    (batch : List KnowledgeChunk) :
    ∃ st : Db × List (SrcKey × Nat),
      (ingest_chunks rag nb db batch).1 = st.1 ∧
      IngestInv nb db (batch.map fun c =>
        { c with text := String.mk (normalize_text c.text.data) }) st := by
  refine ⟨(batch.map fun c => { c with text := String.mk (normalize_text c.text.data) }).foldl
      (ingestStep nb) (db, []), ingest_chunks_db_eq rag nb db batch, ?_⟩
  have h := ingestLoop_inv nb db (batch.map fun c =>
    { c with text := String.mk (normalize_text c.text.data) }) [] (db, [])
    (ingestInv_init nb db)
  simpa using h


/-! ## Lemmas used by the persistence claims -/

instance {ε α : Type} [DecidableEq ε] [DecidableEq α] : DecidableEq (Except ε α) := fun a b =>
  match a, b with
  | .ok x, .ok y => decidable_of_iff (x = y) (by simp)
  | .error e, .error f => decidable_of_iff (e = f) (by simp)
  | .ok _, .error _ => isFalse (by simp)
  | .error _, .ok _ => isFalse (by simp)

theorem resolveSource_preserves (nb : Option Nat) (db : Db)
    (cache : List (SrcKey × Nat)) (nk : KnowledgeChunk) :
    (resolveSource nb db cache nk).2.1.chunks = db.chunks ∧
    (resolveSource nb db cache nk).2.1.feeds = db.feeds ∧
    (resolveSource nb db cache nk).2.1.nextChunkId = db.nextChunkId ∧
    (resolveSource nb db cache nk).2.1.nextFeedId = db.nextFeedId := by
  refine ⟨?_, ?_, ?_, ?_⟩ <;> (simp only [resolveSource]; repeat' split) <;> rfl

theorem ingestStep_shape (nb : Option Nat) (st : Db × List (SrcKey × Nat))
    (nk : KnowledgeChunk) :
    (ingestStep nb st nk).1.chunks.length = st.1.chunks.length + 1 ∧
    (ingestStep nb st nk).1.feeds.length = st.1.feeds.length + 1 := by
  have h := resolveSource_preserves nb st.1 st.2 nk
  rcases hx : resolveSource nb st.1 st.2 nk with ⟨srcId, db', cache'⟩
  rw [hx] at h
  simp only at h
  simp [ingestStep, hx, List.length_append, h.1, h.2.1]

theorem ingestLoop_shape (nb : Option Nat) (batch : List KnowledgeChunk) :
    ∀ st : Db × List (SrcKey × Nat),
    (batch.foldl (ingestStep nb) st).1.chunks.length = st.1.chunks.length + batch.length ∧
    (batch.foldl (ingestStep nb) st).1.feeds.length = st.1.feeds.length + batch.length := by
  induction batch with
  | nil => intro st; simp
  | cons c cs ih =>
    intro st
    have h1 := ingestStep_shape nb st c
    have h2 := ih (ingestStep nb st c)
    simp only [List.foldl_cons, List.length_cons]
    omega

/-- Reduction of `transcribe_audio_to_text` on the default provider string. -/
theorem transcribe_whisper_eq (env : AsrEnv) :
    transcribe_audio_to_text env "whisper" =
      match env.whisperOutcome with
      | some chunks => if chunks ≠ [] then .ok chunks else .error .noTranscriptionAvailable
      | none =>
        if env.openaiKey then openaiBranch env
        else if env.geminiKey then geminiBranch env
        else .error .noTranscriptionAvailable := by rfl

/-! ## The claims -/

/-- C1 (counterexample): the spec's summary example `"• A\n• B\n• C\n• D"`
does not reach confidence ≥ 0.8 — the input is 15 characters long, so the
`< 50`-character penalty multiplies the score by 0.7. -/
theorem summary_bullet_example_confidence_not_ge :
    ¬ ((parse_summary_response "• A\n• B\n• C\n• D").key_points = ["A", "B", "C", "D"] ∧
       (4/5 : ℚ) ≤ (parse_summary_response "• A\n• B\n• C\n• D").confidence_score) := by
  rw [show (4/5 : ℚ) = Rat.divInt 4 5 from by rw [Rat.divInt_eq_div]; norm_num]
  decide

/-- C1 (amended): on `"• A\n• B\n• C\n• D"` the summary parser returns
key points `["A","B","C","D"]` with confidence exactly 0.7
(`clamp(4/4, 0.3, 1.0) * 0.7` for the short response). -/
theorem summary_bullet_example_parsed :
    (parse_summary_response "• A\n• B\n• C\n• D").key_points = ["A", "B", "C", "D"] ∧
    (parse_summary_response "• A\n• B\n• C\n• D").confidence_score = 7/10 := by
  rw [show (7/10 : ℚ) = Rat.divInt 7 10 from by rw [Rat.divInt_eq_div]; norm_num]
  decide

/-- C2 (counterexample): a feed page with fewer items than `limit` still
carries a `next_cursor` (one stored item, `limit = 20`). -/
theorem feed_next_cursor_present_on_partial_page :
    (get_feed [⟨1, 1, .chunk, 1, 0⟩] 1 0 20 none).1.length < 20 ∧
    (get_feed [⟨1, 1, .chunk, 1, 0⟩] 1 0 20 none).2 ≠ none := by decide

/-- C2 (amended): `next_cursor` is absent iff the page is empty; whenever
items are returned it is the last returned item's id. -/
theorem feed_next_cursor_absent_iff_no_items (rows : List FeedRow)
    (nb cursor limit : Nat) (k : Option FeedKind) :
    ((get_feed rows nb cursor limit k).2 = none ↔
      (get_feed rows nb cursor limit k).1 = []) ∧
    (get_feed rows nb cursor limit k).2 =
      ((get_feed rows nb cursor limit k).1.getLast?).map (·.id) := by
  constructor
  · simp [get_feed, Option.map_eq_none', List.getLast?_eq_none_iff]
  · rfl

/-- C3 (counterexample): with both API keys configured, the default engine
failing, the OpenAI retry failing, and a Gemini call that would succeed,
the call surfaces the OpenAI error instead of trying the tertiary branch. -/
theorem transcription_cascade_stops_after_secondary :
    transcribe_audio_to_text ⟨true, true, none, none, some ⟨"g", "audio", none, {}⟩⟩ "whisper" =
      .error .openaiRequestFailed ∧
    transcribe_audio_to_text ⟨true, true, none, none, some ⟨"g", "audio", none, {}⟩⟩ "whisper" ≠
      .ok [⟨"g", "audio", none, {}⟩] := by decide

/-- C3 (amended): on default-engine failure the OpenAI branch is taken iff
its key is configured and its outcome (success or error) is final; the
Gemini branch is tried only when the OpenAI key is unconfigured; the
"no transcription method" error is raised only when neither key is set. -/
theorem transcription_fallback_behavior (env : AsrEnv)
    (hw : env.whisperOutcome = none) :
    (env.openaiKey = true → transcribe_audio_to_text env "whisper" = openaiBranch env) ∧
    (env.openaiKey = false → env.geminiKey = true →
      transcribe_audio_to_text env "whisper" = geminiBranch env) ∧
    (env.openaiKey = false → env.geminiKey = false →
      transcribe_audio_to_text env "whisper" = .error .noTranscriptionAvailable) := by
  rw [transcribe_whisper_eq, hw]
  refine ⟨fun ho => ?_, fun ho hg => ?_, fun ho hg => ?_⟩ <;> simp [ho, *]

/-- C3 (witness): concrete instance of `transcription_fallback_behavior`. -/
theorem transcription_fallback_behavior_witness :
    (⟨false, true, none, some ⟨"o", "audio", none, {}⟩, none⟩ : AsrEnv).whisperOutcome = none ∧
    transcribe_audio_to_text ⟨false, true, none, some ⟨"o", "audio", none, {}⟩, none⟩ "whisper" =
      openaiBranch ⟨false, true, none, some ⟨"o", "audio", none, {}⟩, none⟩ :=
  ⟨rfl, (transcription_fallback_behavior _ rfl).1 rfl⟩

/-- C4 (counterexample): a retrieval-index failure surfacing as a
`RuntimeError` without the `"LightRAG library bug"` marker is re-raised by
`ingest_chunks` — no placeholder id list is returned — though the relational
rows stay committed. -/
theorem ingest_unmarked_runtime_error_propagates :
    (ingest_chunks (.runtimeError false) (some 1) {} [⟨"t", "text", none, {}⟩]).2 =
      .error "re-raised RuntimeError" ∧
    (ingest_chunks (.runtimeError false) (some 1) {} [⟨"t", "text", none, {}⟩]).1.chunks.length
      = 1 := by
  decide

/-- C4 (amended): on any retrieval-index insert failure the Chunk and
FeedItem rows stay committed; a marked LightRAG-bug `RuntimeError` or any
non-`RuntimeError` exception yields placeholder ids of the batch's
cardinality, while an unmarked `RuntimeError` propagates. -/
theorem ingest_rag_failure_placeholders (rag : RagOutcome) (nb : Option Nat) (db : Db)
    (batch : List KnowledgeChunk) (hfail : ∀ ids, rag ≠ .ok ids) :
    (ingest_chunks rag nb db batch).1.chunks.length = db.chunks.length + batch.length ∧
    (ingest_chunks rag nb db batch).1.feeds.length = db.feeds.length + batch.length ∧
    (rag = .runtimeError true ∨ rag = .otherError →
      (ingest_chunks rag nb db batch).2 =
        .ok ((List.range batch.length).map fun i => "db_chunk_" ++ toString i)) ∧
    (rag = .runtimeError false →
      (ingest_chunks rag nb db batch).2 = .error "re-raised RuntimeError") := by
  have hshape := ingestLoop_shape nb (batch.map fun c =>
    { c with text := String.mk (normalize_text c.text.data) }) (db, [])
  rcases rag with ids | marker | _
  · exact absurd rfl (hfail ids)
  · rcases marker <;> simp_all [ingest_chunks, List.length_map]
  · simp_all [ingest_chunks, List.length_map]

/-- C4 (witness): concrete instance of `ingest_rag_failure_placeholders`
at the marked LightRAG-bug failure. -/
theorem ingest_rag_failure_placeholders_witness :
    (ingest_chunks (.runtimeError true) (some 1) {} [⟨"t", "text", none, {}⟩]).1.chunks.length =
      ({} : Db).chunks.length + 1 ∧
    (ingest_chunks (.runtimeError true) (some 1) {} [⟨"t", "text", none, {}⟩]).2 =
      .ok ["db_chunk_0"] := by
  have h := ingest_rag_failure_placeholders (.runtimeError true) (some 1) {}
    [⟨"t", "text", none, {}⟩] (fun ids h => by cases h)
  refine ⟨h.1, ?_⟩
  rw [h.2.2.1 (Or.inl rfl)]
  decide

/-- C5 (counterexample): on `"hello\n\nworld\n\nagain"` (no marker lines at
all) the fallback's answer is only the text between the first and second
blank lines, not all text after the first blank line. -/
theorem qa_no_marker_fallback_counterexample :
    (parse_qa_response "hello\n\nworld\n\nagain").qa_pairs = [⟨"hello", "world"⟩] ∧
    (parse_qa_response "hello\n\nworld\n\nagain").qa_pairs ≠
      [⟨"hello", "world\n\nagain"⟩] := by
  decide

/-- C5 (amended): whenever the line scan yields no pairs (which the mere
absence of `Q:`-style prefixes does not guarantee — any line starting with
`q`/`a` acts as a marker) and the stripped response splits into at least two
`"\n\n"`-separated segments, the parser returns exactly one pair made of the
first two segments. -/
theorem qa_scan_empty_fallback_first_two_segments (s : String)
    (hscan : qaScanPairs s = [])
    (hparts : 2 ≤ (splitSubstr ['\n', '\n'] (pyStrip s.data)).length) :
    (parse_qa_response s).qa_pairs =
      [⟨String.mk (pyStrip ((splitSubstr ['\n', '\n'] (pyStrip s.data)).getD 0 [])),
        String.mk (pyStrip ((splitSubstr ['\n', '\n'] (pyStrip s.data)).getD 1 []))⟩] := by
  have hne : pyStrip s.data ≠ [] := by
    intro h
    rw [h] at hparts
    have : (splitSubstr ['\n', '\n'] ([] : Str)).length = 1 := by decide
    omega
  unfold parse_qa_response
  rw [hscan]
  simp [hne, hparts]

/-- C5 (witness): concrete instance of
`qa_scan_empty_fallback_first_two_segments`. -/
theorem qa_scan_empty_fallback_witness :
    qaScanPairs "hello\n\nworld" = [] ∧
    2 ≤ (splitSubstr ['\n', '\n'] (pyStrip "hello\n\nworld".data)).length ∧
    (parse_qa_response "hello\n\nworld").qa_pairs = [⟨"hello", "world"⟩] := by
  refine ⟨by decide, by decide, ?_⟩
  rw [qa_scan_empty_fallback_first_two_segments "hello\n\nworld" (by decide) (by decide)]
  decide

/-- C6: the three parsers are total functions returning records with bounded
structured fields, and the empty input yields the sentinel records: summary
confidence < 0.5, Q&A question `"No question available"`, no flashcards. -/
theorem parsers_total_and_empty_sentinels :
    (∀ s : String,
      (parse_summary_response s).key_points.length ≤ 4 ∧
      (parse_qa_response s).qa_pairs.length ≤ 6 ∧
      (parse_flashcard_response s).cards.length ≤ 8) ∧
    (parse_summary_response "").confidence_score < 1/2 ∧
    (parse_qa_response "").question = "No question available" ∧
    (parse_flashcard_response "").cards = [] := by
  refine ⟨fun s => ⟨?_, ?_, ?_⟩, ?_, by decide, by decide⟩
  · simp only [parse_summary_response]
    simp [List.length_map, List.length_take]
  · simp only [parse_qa_response]
    simp [List.length_map, List.length_take]
  · simp only [parse_flashcard_response]
    simp [List.length_take]
  · rw [show (1/2 : ℚ) = Rat.divInt 1 2 from by rw [Rat.divInt_eq_div]; norm_num]
    decide

/-- C8: OCR chunking — `N ≥ 2` blank-line-separated non-empty paragraphs
yield exactly `N` chunks; text with no blank-line separation yields exactly
one chunk; and the adapter always returns at least one chunk. -/
theorem ocr_chunk_counts (flag filePath ocrRaw : String) :
    (2 ≤ (ocrParagraphs (redact_pii flag (pyStrip ocrRaw.data))).length →
      (extract_text_from_image_ocr flag filePath ocrRaw).length =
        (ocrParagraphs (redact_pii flag (pyStrip ocrRaw.data))).length) ∧
    (reSearch P_parasep (redact_pii flag (pyStrip ocrRaw.data)) = none →
      (extract_text_from_image_ocr flag filePath ocrRaw).length = 1) ∧
    1 ≤ (extract_text_from_image_ocr flag filePath ocrRaw).length := by
  refine ⟨fun h2 => ?_, fun hnone => ?_, ?_⟩
  · unfold extract_text_from_image_ocr
    have hne : ocrParagraphs (redact_pii flag (pyStrip ocrRaw.data)) ≠ [] := by
      intro h; rw [h] at h2; simp at h2
    simp [hne, List.isEmpty_iff]
  · have hsplit : reSplit P_parasep (redact_pii flag (pyStrip ocrRaw.data)) =
        [redact_pii flag (pyStrip ocrRaw.data)] := by
      unfold reSearch at hnone
      unfold reSplit
      simp [reSplitFuel, hnone]
    simp only [extract_text_from_image_ocr, ocrParagraphs]
    rw [hsplit]
    rcases h : pyStrip (redact_pii flag (pyStrip ocrRaw.data)) with _ | ⟨c, cs⟩ <;>
      simp [h, List.isEmpty_iff]
  · unfold extract_text_from_image_ocr
    rcases h : ((ocrParagraphs (redact_pii flag (pyStrip ocrRaw.data))).map
      (fun para => (⟨String.mk para, "image", some filePath,
        { extra := [("source_type", "image"), ("source_uri", filePath), ("provider", "ocr")] }⟩ :
          KnowledgeChunk))).isEmpty <;> simp_all [List.isEmpty_iff]
    have := List.length_pos.mpr h
    omega

/-- C8 (witness): concrete instances of `ocr_chunk_counts` — two paragraphs
give two chunks, and separator-free text gives one chunk. -/
theorem ocr_chunk_counts_witness :
    2 ≤ (ocrParagraphs (redact_pii "false" (pyStrip "a\n\nb".data))).length ∧
    (extract_text_from_image_ocr "false" "f.png" "a\n\nb").length = 2 ∧
    reSearch P_parasep (redact_pii "false" (pyStrip "a b".data)) = none ∧
    (extract_text_from_image_ocr "false" "f.png" "a b").length = 1 := by
  refine ⟨by decide, ?_, by decide,
    (ocr_chunk_counts "false" "f.png" "a b").2.1 (by decide)⟩
  have h := (ocr_chunk_counts "false" "f.png" "a\n\nb").1 (by decide)
  rw [h]
  decide

/-- C9: within one `ingest_chunks` batch, at most one Source row is created
per distinct (notebook, type, uri) key, and all chunks of the batch sharing a
key are assigned the same source id. -/
theorem source_resolved_once_per_key (rag : RagOutcome) (nb : Option Nat) (db : Db) (batch : List KnowledgeChunk) :
    (∀ t u : String,
      (((ingest_chunks rag nb db batch).1.sources.drop db.sources.length).filter
        (fun r => r.type == t && r.uri == u)).length ≤ 1) ∧
    (∀ (i j : Nat) (hi : i < batch.length) (hj : j < batch.length),
      chunkKey nb (batch.get ⟨i, hi⟩) = chunkKey nb (batch.get ⟨j, hj⟩) →
      ((ingest_chunks rag nb db batch).1.chunks[db.chunks.length + i]?).map (·.source_id) =
      ((ingest_chunks rag nb db batch).1.chunks[db.chunks.length + j]?).map (·.source_id)) := by
  obtain ⟨st, hst, inv⟩ := ingest_chunks_inv rag nb db batch
  constructor
  · intro t u
    obtain ⟨ns, hns, hlook, hpair⟩ := inv.sources
    rw [hst, hns, List.drop_left]
    apply filter_length_le_one_of_pairwise
    apply hpair.imp
    intro r1 r2 hne hp1 hp2
    apply hne
    simp only [Bool.and_eq_true, beq_iff_eq] at hp1 hp2
    simp [Prod.ext_iff, hp1.1, hp1.2, hp2.1, hp2.2]
  · intro i j hi hj hkey
    obtain ⟨rows, hrows, hF⟩ := inv.rowsOK
    have hlen : (batch.map fun c =>
        { c with text := String.mk (normalize_text c.text.data) }).length = rows.length :=
      hF.length_eq
    have hleb : (batch.map fun c =>
        { c with text := String.mk (normalize_text c.text.data) }).length = batch.length := by
      simp
    have hi2 : i < rows.length := by omega
    have hj2 : j < rows.length := by omega
    have hgi : st.1.chunks[db.chunks.length + i]? = some (rows.get ⟨i, hi2⟩) := by
      rw [hrows, List.getElem?_append_right (by omega)]
      simp [List.getElem?_eq_getElem hi2]
    have hgj : st.1.chunks[db.chunks.length + j]? = some (rows.get ⟨j, hj2⟩) := by
      rw [hrows, List.getElem?_append_right (by omega)]
      simp [List.getElem?_eq_getElem hj2]
    rw [hst, hgi, hgj]
    simp only [Option.map_some']
    have hOKi := hF.get (show i < _ by omega) hi2
    have hOKj := hF.get (show j < _ by omega) hj2
    have hkn : ∀ (m : Nat) (hm : m < batch.length)
        (hm2 : m < (batch.map fun c =>
          { c with text := String.mk (normalize_text c.text.data) }).length),
        chunkKey nb ((batch.map fun c =>
          { c with text := String.mk (normalize_text c.text.data) }).get ⟨m, hm2⟩) =
          chunkKey nb (batch.get ⟨m, hm⟩) := by
      intro m hm hm2
      simp only [List.get_eq_getElem, List.getElem_map]
      rfl
    rw [RowOK, hkn i hi (by omega)] at hOKi
    rw [RowOK, hkn j hj (by omega)] at hOKj
    rw [hkey] at hOKi
    by_cases hkg : keyGuard (chunkKey nb (batch.get ⟨j, hj⟩)) = true
    · rw [if_pos hkg] at hOKi hOKj
      obtain ⟨v, hv, hrv⟩ := hOKi
      obtain ⟨w, hw, hrw⟩ := hOKj
      rw [hv] at hw
      rw [hrv, hrw]
      rw [Option.some_inj.mp hw]
    · rw [if_neg hkg] at hOKi hOKj
      rw [hOKi, hOKj]

/-- C9 (witness): concrete instance of `source_resolved_once_per_key` — two
chunks with the same (type, uri) key create at most one Source row and get
the same source id. -/
theorem source_resolved_once_per_key_witness :
    (((ingest_chunks (.ok ["0", "1"]) (some 1) {}
        [⟨"t1", "text", some "u", {}⟩, ⟨"t2", "text", some "u", {}⟩]).1.sources.drop
          ({} : Db).sources.length).filter
      (fun r => r.type == "text" && r.uri == "u")).length ≤ 1 ∧
    ((ingest_chunks (.ok ["0", "1"]) (some 1) {}
        [⟨"t1", "text", some "u", {}⟩, ⟨"t2", "text", some "u", {}⟩]).1.chunks[
          ({} : Db).chunks.length + 0]?).map (·.source_id) =
    ((ingest_chunks (.ok ["0", "1"]) (some 1) {}
        [⟨"t1", "text", some "u", {}⟩, ⟨"t2", "text", some "u", {}⟩]).1.chunks[
          ({} : Db).chunks.length + 1]?).map (·.source_id) :=
  ⟨(source_resolved_once_per_key _ _ _ _).1 "text" "u",
   (source_resolved_once_per_key _ _ _ _).2 0 1 (by decide) (by decide) (by decide)⟩

/-- C10: the flashcard record caps `cards` at 8 while `total_cards` reports
the uncapped count, which strictly exceeds the list length when more than 8
cards were parsed. -/
theorem flashcard_cards_capped_total_uncapped (s : String) :
    (parse_flashcard_response s).cards.length ≤ 8 ∧
    (parse_flashcard_response s).total_cards = (flashCardsAll s).length ∧
    (8 < (flashCardsAll s).length →
      (parse_flashcard_response s).cards.length <
        (parse_flashcard_response s).total_cards) := by
  refine ⟨?_, rfl, fun h => ?_⟩
  · simp [parse_flashcard_response]
  · simp only [parse_flashcard_response, List.length_take]
    omega

set_option maxRecDepth 40000 in
/-- C10 (witness): a nine-card response keeps `cards` at 8 while
`total_cards` reports 9. -/
theorem flashcard_cards_capped_total_uncapped_witness :
    8 < (flashCardsAll "Front: a\nBack: b\n\nFront: a\nBack: b\n\nFront: a\nBack: b\n\nFront: a\nBack: b\n\nFront: a\nBack: b\n\nFront: a\nBack: b\n\nFront: a\nBack: b\n\nFront: a\nBack: b\n\nFront: a\nBack: b").length ∧
    (parse_flashcard_response "Front: a\nBack: b\n\nFront: a\nBack: b\n\nFront: a\nBack: b\n\nFront: a\nBack: b\n\nFront: a\nBack: b\n\nFront: a\nBack: b\n\nFront: a\nBack: b\n\nFront: a\nBack: b\n\nFront: a\nBack: b").cards.length <
      (parse_flashcard_response "Front: a\nBack: b\n\nFront: a\nBack: b\n\nFront: a\nBack: b\n\nFront: a\nBack: b\n\nFront: a\nBack: b\n\nFront: a\nBack: b\n\nFront: a\nBack: b\n\nFront: a\nBack: b\n\nFront: a\nBack: b").total_cards :=
  ⟨by decide, (flashcard_cards_capped_total_uncapped _).2.2 (by decide)⟩


/-! ## Metatheory of the regex engine (for the redaction claims) -/

/-- The `\b`-context character seen at position `n` of `s` when scanning with
initial context `prev`. -/
def prevAt (prev : Option Char) (s : Str) (n : Nat) : Option Char :=
  match (s.take n).getLast? with
  | some c => some c
  | none => prev

theorem prevAt_zero (prev : Option Char) (s : Str) : prevAt prev s 0 = prev := rfl

theorem prevAt_append_left (prev : Option Char) (s t : Str) (n : Nat)
    (h : n ≤ s.length) : prevAt prev (s ++ t) n = prevAt prev s n := by
  unfold prevAt
  rw [List.take_append_of_le_length h]

theorem prevAt_cons_succ (prev : Option Char) (c : Char) (s : Str) (n : Nat) :
    prevAt prev (c :: s) (n + 1) = prevAt (some c) s n := by
  unfold prevAt
  rw [List.take_succ_cons, List.getLast?_cons]
  rcases h : (s.take n).getLast? with _ | d <;> simp [h]

theorem maxRun_le_length (p : Char → Bool) (s : Str) : maxRun p s ≤ s.length := by
  induction s with
  | nil => simp [maxRun]
  | cons c cs ih =>
    unfold maxRun
    split <;> simp <;> omega

theorem maxRun_append_le (p : Char → Bool) (s t : Str) :
    maxRun p s ≤ maxRun p (s ++ t) := by
  induction s with
  | nil => simp [maxRun]
  | cons c cs ih =>
    unfold maxRun
    simp only [List.cons_append]
    split <;> omega

theorem take_maxRun_all (p : Char → Bool) (s : Str) :
    ∀ k, k ≤ maxRun p s → ∀ c ∈ s.take k, p c = true := by
  induction s with
  | nil => simp
  | cons c cs ih =>
    intro k hk d hd
    unfold maxRun at hk
    by_cases hc : p c
    · rw [if_pos hc] at hk
      rcases k with _ | m
      · simp at hd
      · rw [List.take_succ_cons, List.mem_cons] at hd
        rcases hd with rfl | hd
        · exact hc
        · exact ih m (by omega) d hd
    · rw [if_neg hc] at hk
      have : k = 0 := by omega
      subst this
      simp at hd

theorem prefix_all_le_maxRun (p : Char → Bool) (s : Str) (k : Nat)
    (hk : k ≤ s.length) (h : ∀ c ∈ s.take k, p c = true) : k ≤ maxRun p s := by
  induction s generalizing k with
  | nil => simp at hk; omega
  | cons c cs ih =>
    rcases k with _ | m
    · omega
    · rw [List.take_succ_cons] at h
      unfold maxRun
      rw [if_pos (h c (by simp))]
      have := ih m (by simpa using hk) fun d hd => h d (by simp [hd])
      omega


theorem append_left_unique {pre1 pre2 v : Str} (h : pre1 ++ v = pre2 ++ v) :
    pre1 = pre2 := by
  have hl : pre1.length = pre2.length := by
    have := congrArg List.length h
    simp at this
    omega
  have := congrArg (List.take pre1.length) h
  rwa [List.take_left, hl, List.take_left] at this

/-- Every engine result's remaining input is a suffix of the input. -/
theorem reMatches_rest_suffix (r : RE) :
    ∀ (prev : Option Char) (s : Str) (e : MRes), e ∈ reMatches r prev s →
      e.2.1 <:+ s := by
  induction r with
  | cls p =>
    intro prev s e he
    rcases s with _ | ⟨c, cs⟩
    · simp [reMatches] at he
    · simp only [reMatches] at he
      split at he
      · simp at he
        rw [he]
        exact ⟨[c], rfl⟩
      · simp at he
  | lit l ci =>
    intro prev s e he
    simp only [reMatches] at he
    split at he
    all_goals simp at he
    all_goals (rw [he.2]; try exact List.drop_suffix _ _)
  | cat a b iha ihb =>
    intro prev s e he
    simp only [reMatches, List.mem_flatMap, List.mem_map] at he
    obtain ⟨⟨p1, s1, g1⟩, h1, ⟨p2, s2, g2⟩, h2, rfl⟩ := he
    exact (ihb p1 s1 _ h2).trans (iha prev s _ h1)
  | alt a b iha ihb =>
    intro prev s e he
    simp only [reMatches, List.mem_append] at he
    rcases he with he | he
    · exact iha prev s e he
    · exact ihb prev s e he
  | opt a iha =>
    intro prev s e he
    simp only [reMatches, List.mem_append, List.mem_singleton] at he
    rcases he with he | rfl
    · exact iha prev s e he
    · exact List.suffix_rfl
  | rep n p =>
    intro prev s e he
    simp only [reMatches] at he
    split at he
    all_goals simp [consumeN] at he
    all_goals (rw [he]; try exact List.drop_suffix _ _)
  | atLeast n p =>
    intro prev s e he
    simp only [reMatches] at he
    split at he
    · simp only [List.mem_map, List.mem_range] at he
      obtain ⟨i, hi, rfl⟩ := he
      simp only [consumeN]
      exact List.drop_suffix _ _
    · simp at he
  | lazyPlus p =>
    intro prev s e he
    simp only [reMatches, List.mem_map, List.mem_range] at he
    obtain ⟨i, hi, rfl⟩ := he
    simp only [consumeN]
    exact List.drop_suffix _ _
  | look a iha =>
    intro prev s e he
    simp only [reMatches] at he
    split at he
    all_goals simp at he
    all_goals (rw [he]; try exact List.suffix_rfl)
  | wordB =>
    intro prev s e he
    simp only [reMatches] at he
    split at he
    all_goals simp at he
    all_goals (rw [he]; try exact List.suffix_rfl)
  | eos =>
    intro prev s e he
    simp only [reMatches] at he
    split at he
    all_goals simp at he
    all_goals (rw [he]; try exact List.suffix_rfl)
  | grp a iha =>
    intro prev s e he
    simp only [reMatches, List.mem_map] at he
    obtain ⟨⟨p1, s1, g1⟩, h1, rfl⟩ := he
    exact iha prev s (p1, s1, g1) h1


/-- Word-character test on the head of a string (`false` at the end). -/
def wordHead : Str → Bool
  | [] => false
  | c :: _ => pyWord c

/-- The `\b`-context word-flag after consuming `k` characters of `s`,
starting from flag `pw`. -/
def wAt (pw : Bool) (s : Str) (k : Nat) : Bool :=
  match (s.take k).getLast? with
  | some c => pyWord c
  | none => pw

/-- The list of lengths consumed by the candidate matches of `r` on `s`
(in the engine's preference order), given the incoming word-flag `pw`.
For context-free patterns this determines `reMatches` completely. -/
def reLensP : RE → Bool → Str → List Nat
  | .cls p, _, s => match s with | [] => [] | c :: _ => if p c then [1] else []
  | .lit l ci, _, s =>
    if l.length ≤ s.length ∧
        (if ci then lowerS (s.take l.length) = lowerS l else s.take l.length = l) then
      [l.length]
    else []
  | .cat a b, pw, s =>
    (reLensP a pw s).flatMap fun k =>
      (reLensP b (wAt pw s k) (s.drop k)).map fun j => k + j
  | .alt a b, pw, s => reLensP a pw s ++ reLensP b pw s
  | .opt a, pw, s => reLensP a pw s ++ [0]
  | .rep n p, _, s => if n ≤ maxRun p s then [n] else []
  | .atLeast n p, _, s =>
    if n ≤ maxRun p s then
      (List.range (maxRun p s - n + 1)).map fun i => maxRun p s - i
    else []
  | .lazyPlus p, _, s => (List.range (maxRun p s)).map fun i => i + 1
  | .look _, _, _ => []
  | .wordB, pw, s => if pw ≠ wordHead s then [0] else []
  | .eos, _, _ => []
  | .grp _, _, _ => []

/-- Patterns whose matches are fully described by consumed lengths:
no lookahead, no `$`, no groups, only case-sensitive literals. -/
def OKre : RE → Prop
  | .cls _ => True
  | .lit _ ci => ci = false
  | .cat a b => OKre a ∧ OKre b
  | .opt a => OKre a
  | .rep _ _ => True
  | .atLeast _ _ => True
  | .wordB => True
  | _ => False

/-- `OKre` patterns that additionally contain no `\b` (so their match
lengths ignore the word-flag entirely). -/
def NWre : RE → Prop
  | .cls _ => True
  | .lit _ ci => ci = false
  | .cat a b => NWre a ∧ NWre b
  | .opt a => NWre a
  | .rep _ _ => True
  | .atLeast _ _ => True
  | _ => False

/-- Every character consumed by `r` satisfies `C`. -/
def CharsRE (C : Char → Bool) : RE → Prop
  | .cls p => ∀ c, p c = true → C c = true
  | .lit l ci => ci = false ∧ ∀ c ∈ l, C c = true
  | .cat a b => CharsRE C a ∧ CharsRE C b
  | .opt a => CharsRE C a
  | .rep _ p => ∀ c, p c = true → C c = true
  | .atLeast _ p => ∀ c, p c = true → C c = true
  | .wordB => True
  | _ => False

theorem wAt_eq (prev : Option Char) (s : Str) (k : Nat) :
    isWordOpt (prevAt prev s k) = wAt (isWordOpt prev) s k := by
  unfold prevAt wAt
  rcases h : (s.take k).getLast? with _ | c <;> simp [isWordOpt]

theorem prevAt_drop (prev : Option Char) (s : Str) (k j : Nat) :
    prevAt (prevAt prev s k) (s.drop k) j = prevAt prev s (k + j) := by
  rcases h : ((s.drop k).take j).getLast? with _ | c
  · have hnil : (s.drop k).take j = [] := by
      rw [← List.getLast?_eq_none_iff]; exact h
    have ht : s.take (k + j) = s.take k := by
      rw [List.take_add, hnil, List.append_nil]
    unfold prevAt
    rw [ht, hnil]
    rfl
  · unfold prevAt
    rw [List.take_add,
      List.getLast?_append_of_ne_nil _ (by intro hn; rw [hn] at h; simp at h), h]

theorem drop_drop' (s : Str) (k j : Nat) : (s.drop k).drop j = s.drop (k + j) := by
  rw [List.drop_drop, Nat.add_comm]

/-- The engine on a context-free pattern is the image of its length list. -/
theorem reMatches_eq_lensP (r : RE) (h : OKre r) :
    ∀ (prev : Option Char) (s : Str),
      reMatches r prev s =
        (reLensP r (isWordOpt prev) s).map fun k => (prevAt prev s k, s.drop k, none) := by
  induction r with
  | cls p =>
    intro prev s
    rcases s with _ | ⟨c, cs⟩
    · simp [reMatches, reLensP]
    · simp only [reMatches, reLensP]
      split <;> simp [prevAt]
  | lit l ci =>
    intro prev s
    simp only [reMatches, reLensP]
    split <;> split
    all_goals first | rfl | simp [prevAt]
  | cat a b iha ihb =>
    intro prev s
    obtain ⟨ha, hb⟩ := h
    simp only [reMatches, reLensP, iha ha, ihb hb, List.flatMap_map, List.map_map,
      List.map_flatMap]
    refine List.flatMap_congr ?_
    intro k _
    rw [← wAt_eq]
    try simp only [List.map_map]
    refine List.map_congr_left ?_
    intro j _
    simp [Function.comp, prevAt_drop, drop_drop']
  | alt a b iha ihb => exact h.elim
  | opt a iha =>
    intro prev s
    simp only [reMatches, reLensP, iha h, List.map_append]
    simp [prevAt_zero]
  | rep n p =>
    intro prev s
    simp only [reMatches, reLensP]
    split <;> simp [consumeN, prevAt]
  | atLeast n p =>
    intro prev s
    simp only [reMatches, reLensP]
    split <;> simp [consumeN, prevAt, List.map_map, Function.comp]
  | lazyPlus p => exact h.elim
  | look a iha => exact h.elim
  | wordB =>
    intro prev s
    simp only [reMatches, reLensP]
    have hw : (match s with | c :: _ => pyWord c | [] => false) = wordHead s := by
      rcases s with _ | ⟨c, cs⟩ <;> rfl
    rw [hw]
    split <;> rename_i hc
    · simp [prevAt_zero]
    · rfl
  | eos => exact h.elim
  | grp a iha => exact h.elim

/-- Emptiness of the engine result only depends on the length list. -/
theorem reMatches_empty_iff (r : RE) (h : OKre r) (prev : Option Char) (s : Str) :
    reMatches r prev s = [] ↔ reLensP r (isWordOpt prev) s = [] := by
  rw [reMatches_eq_lensP r h prev s, List.map_eq_nil_iff]


theorem mem_lensP_cat {a b : RE} {pw : Bool} {s : Str} {k : Nat} :
    k ∈ reLensP (.cat a b) pw s ↔
      ∃ k1 k2, k1 ∈ reLensP a pw s ∧ k2 ∈ reLensP b (wAt pw s k1) (s.drop k1) ∧
        k = k1 + k2 := by
  simp only [reLensP, List.mem_flatMap, List.mem_map]
  constructor
  · rintro ⟨k1, h1, k2, h2, rfl⟩
    exact ⟨k1, k2, h1, h2, rfl⟩
  · rintro ⟨k1, k2, h1, h2, rfl⟩
    exact ⟨k1, h1, k2, h2, rfl⟩

theorem mem_lensP_lit {l : Str} {ci : Bool} {pw : Bool} {s : Str} {k : Nat} :
    k ∈ reLensP (.lit l ci) pw s ↔
      (l.length ≤ s.length ∧
        (if ci then lowerS (s.take l.length) = lowerS l else s.take l.length = l)) ∧
      k = l.length := by
  simp only [reLensP]
  split <;> rename_i hc <;> simp [hc]

theorem mem_lensP_cls {p : Char → Bool} {pw : Bool} {s : Str} {k : Nat} :
    k ∈ reLensP (.cls p) pw s ↔
      (∃ c cs, s = c :: cs ∧ p c = true) ∧ k = 1 := by
  rcases s with _ | ⟨c, cs⟩
  · simp [reLensP]
  · simp only [reLensP]
    split <;> rename_i hc <;> simp [hc]

theorem mem_lensP_opt {a : RE} {pw : Bool} {s : Str} {k : Nat} :
    k ∈ reLensP (.opt a) pw s ↔ k ∈ reLensP a pw s ∨ k = 0 := by
  simp [reLensP]

theorem mem_lensP_rep {n : Nat} {p : Char → Bool} {pw : Bool} {s : Str} {k : Nat} :
    k ∈ reLensP (.rep n p) pw s ↔ n ≤ maxRun p s ∧ k = n := by
  simp only [reLensP]
  split <;> rename_i hc <;> simp [hc]

theorem mem_lensP_atLeast {n : Nat} {p : Char → Bool} {pw : Bool} {s : Str} {k : Nat} :
    k ∈ reLensP (.atLeast n p) pw s ↔ n ≤ k ∧ k ≤ maxRun p s := by
  simp only [reLensP]
  split <;> rename_i hc
  · simp only [List.mem_map, List.mem_range]
    constructor
    · rintro ⟨i, hi, rfl⟩
      omega
    · rintro ⟨h1, h2⟩
      refine ⟨maxRun p s - k, by omega, by omega⟩
  · simp only [List.not_mem_nil, false_iff]
    omega

theorem mem_lensP_wordB {pw : Bool} {s : Str} {k : Nat} :
    k ∈ reLensP .wordB pw s ↔ pw ≠ wordHead s ∧ k = 0 := by
  simp only [reLensP]
  split <;> rename_i hc <;> simp [hc]

/-- Bounds and character content of any consumed length. -/
theorem lensP_bound_chars {C : Char → Bool} {r : RE} (hr : OKre r) (hC : CharsRE C r) :
    ∀ {pw : Bool} {s : Str} {k : Nat}, k ∈ reLensP r pw s →
      k ≤ s.length ∧ ∀ c ∈ s.take k, C c = true := by
  induction r with
  | cls p =>
    intro pw s k hk
    rw [mem_lensP_cls] at hk
    obtain ⟨⟨c, cs, rfl, hc⟩, rfl⟩ := hk
    refine ⟨by simp, ?_⟩
    intro d hd
    simp only [List.take_succ_cons, List.take_zero, List.mem_singleton] at hd
    subst hd
    exact hC _ hc
  | lit l ci =>
    intro pw s k hk
    rw [mem_lensP_lit] at hk
    obtain ⟨⟨hlen, hcond⟩, rfl⟩ := hk
    have hci : ci = false := hr
    subst hci
    simp only [Bool.false_eq_true, if_false] at hcond
    refine ⟨hlen, ?_⟩
    intro c hc
    rw [hcond] at hc
    exact hC.2 c hc
  | cat a b iha ihb =>
    intro pw s k hk
    rw [mem_lensP_cat] at hk
    obtain ⟨k1, k2, h1, h2, rfl⟩ := hk
    obtain ⟨hb1, hc1⟩ := iha hr.1 hC.1 h1
    obtain ⟨hb2, hc2⟩ := ihb hr.2 hC.2 h2
    rw [List.length_drop] at hb2
    refine ⟨by omega, ?_⟩
    intro c hc
    rw [List.take_add, List.mem_append] at hc
    rcases hc with hc | hc
    · exact hc1 c hc
    · exact hc2 c hc
  | alt a b iha ihb => exact hr.elim
  | opt a iha =>
    intro pw s k hk
    rw [mem_lensP_opt] at hk
    rcases hk with hk | rfl
    · exact iha hr hC hk
    · simp
  | rep n p =>
    intro pw s k hk
    rw [mem_lensP_rep] at hk
    obtain ⟨hrun, rfl⟩ := hk
    refine ⟨le_trans hrun (maxRun_le_length p s), ?_⟩
    intro c hc
    exact hC c (take_maxRun_all p s _ hrun c hc)
  | atLeast n p =>
    intro pw s k hk
    rw [mem_lensP_atLeast] at hk
    refine ⟨le_trans hk.2 (maxRun_le_length p s), ?_⟩
    intro c hc
    exact hC c (take_maxRun_all p s k hk.2 c hc)
  | lazyPlus p => exact hr.elim
  | look a iha => exact hr.elim
  | wordB =>
    intro pw s k hk
    rw [mem_lensP_wordB] at hk
    simp [hk.2]
  | eos => exact hr.elim
  | grp a iha => exact hr.elim

theorem okre_of_nwre {r : RE} (h : NWre r) : OKre r := by
  induction r with
  | cls p => trivial
  | lit l ci => exact h
  | cat a b iha ihb => exact ⟨iha h.1, ihb h.2⟩
  | alt a b iha ihb => exact h.elim
  | opt a iha => exact iha h
  | rep n p => trivial
  | atLeast n p => trivial
  | lazyPlus p => exact h.elim
  | look a iha => exact h.elim
  | wordB => exact h.elim
  | eos => exact h.elim
  | grp a iha => exact h.elim

theorem charsRE_true {r : RE} (h : OKre r) : CharsRE (fun _ => true) r := by
  induction r with
  | cls p => exact fun _ _ => rfl
  | lit l ci => exact ⟨h, fun _ _ => rfl⟩
  | cat a b iha ihb => exact ⟨iha h.1, ihb h.2⟩
  | alt a b iha ihb => exact h.elim
  | opt a iha => exact iha h
  | rep n p => exact fun _ _ => rfl
  | atLeast n p => exact fun _ _ => rfl
  | lazyPlus p => exact h.elim
  | look a iha => exact h.elim
  | wordB => trivial
  | eos => exact h.elim
  | grp a iha => exact h.elim

/-- Any consumed length is bounded by the input length. -/
theorem lensP_bound {r : RE} (hr : OKre r) {pw : Bool} {s : Str} {k : Nat}
    (hk : k ∈ reLensP r pw s) : k ≤ s.length :=
  (lensP_bound_chars hr (charsRE_true hr) hk).1

/-- For `\b`-free patterns the word-flag is irrelevant. -/
theorem lensP_pw_irrel {r : RE} (hr : NWre r) :
    ∀ (pw pw' : Bool) (s : Str), reLensP r pw s = reLensP r pw' s := by
  induction r with
  | cls p => intro pw pw' s; rfl
  | lit l ci => intro pw pw' s; rfl
  | cat a b iha ihb =>
    intro pw pw' s
    simp only [reLensP]
    rw [iha hr.1 pw pw']
    refine List.flatMap_congr ?_
    intro k _
    rw [ihb hr.2 (wAt pw s k) (wAt pw' s k)]
  | alt a b iha ihb => exact hr.elim
  | opt a iha =>
    intro pw pw' s
    simp only [reLensP]
    rw [iha hr]
  | rep n p => intro pw pw' s; rfl
  | atLeast n p => intro pw pw' s; rfl
  | lazyPlus p => exact hr.elim
  | look a iha => exact hr.elim
  | wordB => exact hr.elim
  | eos => exact hr.elim
  | grp a iha => exact hr.elim

/-- `maxRun` on an appended string. -/
theorem maxRun_append (p : Char → Bool) (s t : Str) :
    maxRun p (s ++ t) =
      if maxRun p s < s.length then maxRun p s else s.length + maxRun p t := by
  induction s with
  | nil => simp [maxRun]
  | cons c cs ih =>
    by_cases hc : p c
    · simp only [List.cons_append, maxRun, hc, if_true, List.length_cons, List.append_eq, ih]
      split <;> split <;> omega
    · simp [List.cons_append, maxRun, hc]

/-- `NWre` lengths survive appending text on the right. -/
theorem lensP_mono {r : RE} (hr : NWre r) :
    ∀ {pw : Bool} {s t : Str} {k : Nat}, k ∈ reLensP r pw s → k ∈ reLensP r pw (s ++ t) := by
  induction r with
  | cls p =>
    intro pw s t k hk
    rw [mem_lensP_cls] at hk ⊢
    obtain ⟨⟨c, cs, rfl, hc⟩, rfl⟩ := hk
    exact ⟨⟨c, cs ++ t, rfl, hc⟩, rfl⟩
  | lit l ci =>
    intro pw s t k hk
    have hci : ci = false := hr
    subst hci
    rw [mem_lensP_lit] at hk ⊢
    simp only [Bool.false_eq_true, if_false] at hk ⊢
    obtain ⟨⟨hlen, hcond⟩, rfl⟩ := hk
    rw [List.length_append]
    exact ⟨⟨by omega, by rw [List.take_append_of_le_length hlen, hcond]⟩, rfl⟩
  | cat a b iha ihb =>
    intro pw s t k hk
    rw [mem_lensP_cat] at hk ⊢
    obtain ⟨k1, k2, h1, h2, rfl⟩ := hk
    have hb1 := lensP_bound (okre_of_nwre hr.1) h1
    have hwat : wAt pw (s ++ t) k1 = wAt pw s k1 := by
      unfold wAt
      rw [List.take_append_of_le_length hb1]
    have hdrop : (s ++ t).drop k1 = s.drop k1 ++ t :=
      List.drop_append_of_le_length hb1
    refine ⟨k1, k2, iha hr.1 h1, ?_, rfl⟩
    rw [hwat, hdrop]
    exact ihb hr.2 h2
  | alt a b iha ihb => exact hr.elim
  | opt a iha =>
    intro pw s t k hk
    rw [mem_lensP_opt] at hk ⊢
    rcases hk with hk | rfl
    · exact Or.inl (iha hr hk)
    · exact Or.inr rfl
  | rep n p =>
    intro pw s t k hk
    rw [mem_lensP_rep] at hk ⊢
    exact ⟨le_trans hk.1 (maxRun_append_le p s t), hk.2⟩
  | atLeast n p =>
    intro pw s t k hk
    rw [mem_lensP_atLeast] at hk ⊢
    exact ⟨hk.1, le_trans hk.2 (maxRun_append_le p s t)⟩
  | lazyPlus p => exact hr.elim
  | look a iha => exact hr.elim
  | wordB => exact hr.elim
  | eos => exact hr.elim
  | grp a iha => exact hr.elim


/-- A `\b`-free match length that stays within `s` is already a match
length on `s` alone. -/
theorem lensP_restrict {r : RE} (hr : NWre r) :
    ∀ {pw : Bool} {s t : Str} {k : Nat},
      k ∈ reLensP r pw (s ++ t) → k ≤ s.length → k ∈ reLensP r pw s := by
  induction r with
  | cls p =>
    intro pw s t k hk hle
    rw [mem_lensP_cls] at hk ⊢
    obtain ⟨⟨c, cs, hcons, hc⟩, rfl⟩ := hk
    rcases s with _ | ⟨d, ds⟩
    · simp at hle
    · simp only [List.cons_append, List.cons.injEq] at hcons
      exact ⟨⟨d, ds, rfl, hcons.1 ▸ hc⟩, rfl⟩
  | lit l ci =>
    intro pw s t k hk hle
    have hci : ci = false := hr
    subst hci
    rw [mem_lensP_lit] at hk ⊢
    simp only [Bool.false_eq_true, if_false] at hk ⊢
    obtain ⟨⟨hlen, hcond⟩, rfl⟩ := hk
    rw [List.take_append_of_le_length hle] at hcond
    exact ⟨⟨hle, hcond⟩, rfl⟩
  | cat a b iha ihb =>
    intro pw s t k hk hle
    rw [mem_lensP_cat] at hk ⊢
    obtain ⟨k1, k2, h1, h2, rfl⟩ := hk
    have hk1 : k1 ≤ s.length := by omega
    have hwat : wAt pw (s ++ t) k1 = wAt pw s k1 := by
      unfold wAt
      rw [List.take_append_of_le_length hk1]
    have hdrop : (s ++ t).drop k1 = s.drop k1 ++ t :=
      List.drop_append_of_le_length hk1
    rw [hwat, hdrop] at h2
    have hk2 : k2 ≤ (s.drop k1).length := by
      rw [List.length_drop]
      omega
    exact ⟨k1, k2, iha hr.1 h1 hk1, ihb hr.2 h2 hk2, rfl⟩
  | alt a b iha ihb => exact hr.elim
  | opt a iha =>
    intro pw s t k hk hle
    rw [mem_lensP_opt] at hk ⊢
    rcases hk with hk | rfl
    · exact Or.inl (iha hr hk hle)
    · exact Or.inr rfl
  | rep n p =>
    intro pw s t k hk hle
    rw [mem_lensP_rep] at hk ⊢
    obtain ⟨hrun, rfl⟩ := hk
    rw [maxRun_append] at hrun
    refine ⟨?_, rfl⟩
    split at hrun <;> omega
  | atLeast n p =>
    intro pw s t k hk hle
    rw [mem_lensP_atLeast] at hk ⊢
    obtain ⟨h1, h2⟩ := hk
    rw [maxRun_append] at h2
    refine ⟨h1, ?_⟩
    split at h2
    · omega
    · have := maxRun_le_length p s
      omega
  | lazyPlus p => exact hr.elim
  | look a iha => exact hr.elim
  | wordB => exact hr.elim
  | eos => exact hr.elim
  | grp a iha => exact hr.elim

/-- Positional specification of the leftmost-search scan: it returns `none`
iff no position admits a match. -/
theorem reFindAux_none_iff (r : RE) :
    ∀ (prev : Option Char) (s : Str),
      reFindAux r prev s = none ↔
        ∀ i, reMatches r (prevAt prev s i) (s.drop i) = [] := by
  intro prev s
  induction s generalizing prev with
  | nil =>
    simp only [reFindAux]
    constructor
    · intro h i
      rcases hm : (reMatches r prev []).head? with _ | e
      · have : reMatches r prev [] = [] := List.head?_eq_none_iff.mp hm
        simpa [prevAt, List.drop_nil] using this
      · rw [hm] at h
        rcases e with ⟨p1, s1, g1⟩
        simp at h
    · intro h
      have h0 := h 0
      rw [prevAt_zero] at h0
      simp only [List.drop_nil] at h0
      rw [h0]
      rfl
  | cons c cs ih =>
    simp only [reFindAux]
    rcases hm : (reMatches r prev (c :: cs)).head? with _ | e
    · have hnil : reMatches r prev (c :: cs) = [] := List.head?_eq_none_iff.mp hm
      simp only [Option.map_eq_none', ih (some c)]
      constructor
      · intro h i
        rcases i with _ | j
        · rw [prevAt_zero]
          simpa using hnil
        · rw [prevAt_cons_succ]
          simpa using h j
      · intro h j
        have := h (j + 1)
        rw [prevAt_cons_succ] at this
        simpa using this
    · rcases e with ⟨p1, s1, g1⟩
      simp only [reduceCtorEq, false_iff, not_forall]
      refine ⟨0, ?_⟩
      rw [prevAt_zero]
      intro hcon
      rw [List.drop_zero] at hcon
      rw [hcon] at hm
      simp at hm

/-- If the scan finds nothing, substitution is the identity (any fuel). -/
theorem reSubFuel_id {r : RE} {repl : Str} {prev : Option Char} {s : Str}
    (h : reFindAux r prev s = none) :
    ∀ n, reSubFuel r repl n prev s = s := by
  intro n
  rcases n with _ | m
  · rfl
  · simp only [reSubFuel, h]

/-- Specification of a successful leftmost search: the input splits as
`pre ++ m ++ rest`, no earlier position matches, and the match at `pre`
is the engine's chosen one. -/
theorem reFindAux_some_spec (r : RE) :
    ∀ (prev : Option Char) (s : Str) (pre m rest : Str) (g : Option Str),
      reFindAux r prev s = some (pre, m, rest, g) →
      s = pre ++ m ++ rest ∧
      (∀ i, i < pre.length → reMatches r (prevAt prev s i) (s.drop i) = []) ∧
      ∃ p1, (reMatches r (prevAt prev s pre.length) (s.drop pre.length)).head? =
        some (p1, rest, g) := by
  intro prev s
  induction s generalizing prev with
  | nil =>
    intro pre m rest g h
    simp only [reFindAux] at h
    rcases hm : (reMatches r prev []).head? with _ | e
    · rw [hm] at h
      exact absurd h (by simp)
    · rw [hm] at h
      rcases e with ⟨p1, s1, g1⟩
      have hmem : (p1, s1, g1) ∈ reMatches r prev [] := List.mem_of_mem_head? (by rw [hm]; rfl)
      have hsuf : s1 <:+ [] := reMatches_rest_suffix r prev [] _ hmem
      have hs1 : s1 = [] := List.suffix_nil.mp hsuf
      simp only [Option.some.injEq, Prod.mk.injEq] at h
      obtain ⟨hpre, hm2, hrest, hg⟩ := h
      subst hpre hm2 hrest hg
      refine ⟨rfl, by simp, ⟨p1, ?_⟩⟩
      simp only [List.length_nil, List.drop_nil, prevAt_zero]
      rw [hm, hs1]
  | cons c cs ih =>
    intro pre m rest g h
    simp only [reFindAux] at h
    rcases hm : (reMatches r prev (c :: cs)).head? with _ | e
    · rw [hm] at h
      rcases hrec : reFindAux r (some c) cs with _ | x
      · rw [hrec] at h
        exact absurd h (by simp)
      · rw [hrec] at h
        rcases x with ⟨pre', m', rest', g'⟩
        simp only [Option.map_some', Option.some.injEq, Prod.mk.injEq] at h
        obtain ⟨hpre, hm2, hrest, hg⟩ := h
        obtain ⟨hsplit, hfree, p1, hhead⟩ := ih (some c) pre' m' rest' g' hrec
        subst hpre hm2 hrest hg
        refine ⟨by rw [List.cons_append, List.cons_append, ← hsplit], ?_, ⟨p1, ?_⟩⟩
        · intro i hi
          rcases i with _ | j
          · rw [prevAt_zero, List.drop_zero]
            exact List.head?_eq_none_iff.mp hm
          · rw [prevAt_cons_succ]
            simp only [List.length_cons, Nat.succ_lt_succ_iff] at hi
            simpa using hfree j hi
        · simp only [List.length_cons]
          rw [prevAt_cons_succ]
          simpa using hhead
    · rw [hm] at h
      rcases e with ⟨p1, s1, g1⟩
      simp only [Option.some.injEq, Prod.mk.injEq] at h
      obtain ⟨hpre, hm2, hrest, hg⟩ := h
      have hmem : (p1, s1, g1) ∈ reMatches r prev (c :: cs) :=
        List.mem_of_mem_head? (by rw [hm]; rfl)
      have hsuf : s1 <:+ c :: cs := reMatches_rest_suffix r prev (c :: cs) _ hmem
      obtain ⟨u, hu⟩ := hsuf
      have hlen : s1.length ≤ (c :: cs).length := by
        rw [← hu]
        simp
      subst hpre hrest hg
      have hmtake : m = u := by
        rw [← hm2, ← hu]
        rw [show (u ++ s1).length - s1.length = u.length by simp]
        exact List.take_left u s1
      refine ⟨by rw [List.nil_append, hmtake, hu], by simp, ⟨p1, ?_⟩⟩
      simp only [List.length_nil, List.drop_zero, prevAt_zero]
      rw [hm]


/-- `t` admits no match of `r` at any position (as a standalone string). -/
def EF (r : RE) (t : Str) : Prop :=
  ∀ (i : Nat) (pw : Bool), reLensP r pw (t.drop i) = []

theorem EF_drop {r : RE} {t : Str} (h : EF r t) (n : Nat) : EF r (t.drop n) := by
  intro i pw
  rw [drop_drop']
  exact h (n + i) pw

theorem EF_iff_find_none {r : RE} (hok : OKre r) (hnw : NWre r) {t : Str}
    (prev : Option Char) : EF r t ↔ reFindAux r prev t = none := by
  rw [reFindAux_none_iff]
  constructor
  · intro h i
    rw [reMatches_empty_iff r hok]
    exact h i _
  · intro h i pw
    rw [lensP_pw_irrel hnw pw (isWordOpt (prevAt prev t i))]
    rw [← reMatches_empty_iff r hok]
    exact h i

theorem mem_take_append_of_lt {a w : Str} {x : Char} {k : Nat} (h : a.length < k) :
    x ∈ (a ++ x :: w).take k := by
  rw [List.take_append_eq_append_take, List.mem_append]
  right
  rcases hj : k - a.length with _ | j
  · omega
  · rw [List.take_succ_cons]
    exact List.mem_cons_self _ _

theorem lensP_block_pre {C : Char → Bool} {r : RE} (hnw : NWre r) (hC : CharsRE C r)
    (hbl : C '[' = false) {pw : Bool} {a m' w : Str}
    (hfree : reLensP r pw (a ++ m') = []) :
    reLensP r pw (a ++ '[' :: w) = [] := by
  by_contra hne
  obtain ⟨k, hk⟩ := List.exists_mem_of_ne_nil _ hne
  by_cases hlen : k ≤ a.length
  · have hk' := lensP_mono hnw (lensP_restrict hnw hk hlen) (t := m')
    rw [hfree] at hk'
    simp at hk'
  · have hchars := (lensP_bound_chars (okre_of_nwre hnw) hC hk).2
    have hmem : '[' ∈ (a ++ '[' :: w).take k := mem_take_append_of_lt (by omega)
    have := hchars '[' hmem
    rw [hbl] at this
    exact absurd this (by simp)

theorem lensP_block_inside {C W : Char → Bool} {r : RE} (hok : OKre r) (hC : CharsRE C r)
    (hW : ∀ (pw : Bool) (S : Str) (k : Nat), k ∈ reLensP r pw S →
      ∃ c ∈ S.take k, W c = true)
    {g : Str} {d : Char} (hg : ∀ c ∈ g, W c = false) (hd : C d = false)
    (w : Str) (pw : Bool) :
    reLensP r pw (g ++ d :: w) = [] := by
  by_contra hne
  obtain ⟨k, hk⟩ := List.exists_mem_of_ne_nil _ hne
  obtain ⟨c, hcmem, hcW⟩ := hW pw _ k hk
  by_cases hlen : k ≤ g.length
  · rw [List.take_append_of_le_length hlen] at hcmem
    have := hg c (List.take_subset _ _ hcmem)
    rw [this] at hcW
    exact absurd hcW (by simp)
  · have hchars := (lensP_bound_chars hok hC hk).2
    have hmem : d ∈ (g ++ d :: w).take k := mem_take_append_of_lt (by omega)
    have := hchars d hmem
    rw [hd] at this
    exact absurd this (by simp)


/-- Gluing a match-free prefix, a bracketed placeholder and a match-free
tail yields a match-free string (for `\b`-free patterns whose characters
avoid brackets and whose every match contains a witness character). -/
theorem EF_glue {C W : Char → Bool} {r : RE} (hnw : NWre r) (hC : CharsRE C r)
    (hW : ∀ (pw : Bool) (S : Str) (k : Nat), k ∈ reLensP r pw S →
      ∃ c ∈ S.take k, W c = true)
    (hbl : C '[' = false) (hbr : C ']' = false)
    {pre mid out' : Str} (mrest : Str)
    (hpre : ∀ i, i < pre.length → ∀ pw, reLensP r pw (pre.drop i ++ mrest) = [])
    (hmid : ∀ c ∈ mid, W c = false)
    (hout : EF r out') :
    EF r (pre ++ ('[' :: mid ++ [']']) ++ out') := by
  intro i pw
  have hQ : ('[' :: mid ++ [']']) ++ out' = '[' :: (mid ++ ']' :: out') := by
    simp
  rw [List.append_assoc]
  by_cases h1 : i < pre.length
  · rw [List.drop_append_of_le_length (le_of_lt h1), hQ]
    exact lensP_block_pre hnw hC hbl (hpre i h1 pw)
  · have hdrop1 : (pre ++ (('[' :: mid ++ [']']) ++ out')).drop i
        = ('[' :: (mid ++ ']' :: out')).drop (i - pre.length) := by
      conv_lhs =>
        rw [show i = pre.length + (i - pre.length) from by omega, ← drop_drop',
          List.drop_left]
      rw [hQ]
    rw [hdrop1]
    rcases hj : i - pre.length with _ | j
    · rw [List.drop_zero]
      exact lensP_block_inside (okre_of_nwre hnw) hC hW
        (g := []) (by intro c hc; simp at hc) hbl _ pw
    · rw [List.drop_succ_cons]
      by_cases h2 : j ≤ mid.length
      · rw [List.drop_append_of_le_length h2]
        exact lensP_block_inside (okre_of_nwre hnw) hC hW
          (g := mid.drop j) (fun c hc => hmid c (List.drop_subset _ _ hc)) hbr _ pw
      · have hdrop2 : (mid ++ ']' :: out').drop j = out'.drop (j - (mid.length + 1)) := by
          conv_lhs =>
            rw [show mid ++ ']' :: out' = (mid ++ [']']) ++ out' from by simp,
              show j = (mid ++ [']']).length + (j - (mid.length + 1)) from by
                simp; omega,
              ← drop_drop', List.drop_left]
        rw [hdrop2]
        exact hout _ pw

/-- Substituting a bracketed placeholder for every match of a `\b`-free
pattern leaves a string with no further matches of that pattern. -/
theorem reSubFuel_exhausts {C W : Char → Bool} {r : RE} (hnw : NWre r) (hC : CharsRE C r)
    (hW : ∀ (pw : Bool) (S : Str) (k : Nat), k ∈ reLensP r pw S →
      ∃ c ∈ S.take k, W c = true)
    (hbl : C '[' = false) (hbr : C ']' = false)
    {mid : Str} (hmid : ∀ c ∈ mid, W c = false) :
    ∀ (fuel : Nat) (s : Str) (prev : Option Char), s.length < fuel →
      EF r (reSubFuel r ('[' :: mid ++ [']']) fuel prev s) := by
  intro fuel
  induction fuel with
  | zero => intro s prev h; exact absurd h (Nat.not_lt_zero _)
  | succ n ih =>
    intro s prev hlen
    rcases hf : reFindAux r prev s with _ | x
    · rw [reSubFuel_id hf]
      exact (EF_iff_find_none (okre_of_nwre hnw) hnw prev).mpr hf
    · rcases x with ⟨pre, m, rest, g⟩
      obtain ⟨hsplit, hfree0, p1, hhead⟩ := reFindAux_some_spec r prev s pre m rest g hf
      have hdropPre : s.drop pre.length = m ++ rest := by
        rw [hsplit, List.append_assoc, List.drop_left]
      have hmem0 : (p1, rest, g) ∈ reMatches r (prevAt prev s pre.length) (s.drop pre.length) :=
        List.mem_of_mem_head? (by rw [hhead]; rfl)
      rw [reMatches_eq_lensP r (okre_of_nwre hnw)] at hmem0
      obtain ⟨k, hkmem, hkeq⟩ := List.mem_map.mp hmem0
      simp only [Prod.mk.injEq] at hkeq
      have hrest_eq : (s.drop pre.length).drop k = rest := hkeq.2.1
      have hkb : k ≤ (s.drop pre.length).length :=
        lensP_bound (okre_of_nwre hnw) hkmem
      have hkm : k = m.length := by
        have h1 := congrArg List.length hrest_eq
        rw [List.length_drop] at h1
        rw [hdropPre, List.length_append] at h1
        rw [hdropPre, List.length_append] at hkb
        omega
      rw [hdropPre] at hkmem
      subst hkm
      obtain ⟨c0, hc0mem, hc0W⟩ := hW _ _ _ hkmem
      rw [List.take_left] at hc0mem
      have hmne : m ≠ [] := by
        intro hcon
        rw [hcon] at hc0mem
        simp at hc0mem
      simp only [reSubFuel, hf]
      rcases hl : m.getLast? with _ | c
      · exact absurd (List.getLast?_eq_none_iff.mp hl) hmne
      · have hmlen : 1 ≤ m.length := by
          rcases m with _ | ⟨d, ds⟩
          · simp at hc0mem
          · simp
        have hslen : s.length = pre.length + m.length + rest.length := by
          rw [hsplit]
          simp only [List.length_append]
        refine EF_glue hnw hC hW hbl hbr (m ++ rest) ?_ hmid
          (ih rest (some c) (by omega))
        intro i hi pw
        have hdropI : s.drop i = pre.drop i ++ (m ++ rest) := by
          rw [hsplit, List.append_assoc, List.drop_append_of_le_length (le_of_lt hi)]
        rw [← hdropI]
        rw [lensP_pw_irrel hnw pw (isWordOpt (prevAt prev s i))]
        rw [← reMatches_empty_iff r (okre_of_nwre hnw)]
        exact hfree0 i hi

/-- Substituting matches of any other pattern (with a bracketed placeholder
that contains no witness character) cannot create a match of `r`. -/
theorem reSubFuel_preserves_EF {C W : Char → Bool} {r : RE} (hnw : NWre r)
    (hC : CharsRE C r)
    (hW : ∀ (pw : Bool) (S : Str) (k : Nat), k ∈ reLensP r pw S →
      ∃ c ∈ S.take k, W c = true)
    (hbl : C '[' = false) (hbr : C ']' = false)
    {mid : Str} (hmid : ∀ c ∈ mid, W c = false) (r' : RE) :
    ∀ (fuel : Nat) (t : Str) (prev : Option Char), EF r t →
      EF r (reSubFuel r' ('[' :: mid ++ [']']) fuel prev t) := by
  intro fuel
  induction fuel with
  | zero => intro t prev ht; exact ht
  | succ n ih =>
    intro t prev ht
    rcases hf : reFindAux r' prev t with _ | x
    · rw [reSubFuel_id hf]
      exact ht
    · rcases x with ⟨pre, m, rest, g⟩
      obtain ⟨hsplit, hfree0, p1, hhead⟩ := reFindAux_some_spec r' prev t pre m rest g hf
      simp only [reSubFuel, hf]
      rcases hl : m.getLast? with _ | c
      · exact ht
      · have hrest : rest = t.drop (pre.length + m.length) := by
          rw [hsplit, show pre.length + m.length = (pre ++ m).length from by simp,
            List.drop_left]
        refine EF_glue hnw hC hW hbl hbr (m ++ rest) ?_ hmid ?_
        · intro i hi pw
          have hdropI : t.drop i = pre.drop i ++ (m ++ rest) := by
            rw [hsplit, List.append_assoc, List.drop_append_of_le_length (le_of_lt hi)]
          rw [← hdropI]
          exact ht i pw
        · have hEFrest : EF r rest := by
            rw [hrest]
            exact EF_drop ht _
          exact ih _ (some c) hEFrest


/-- Every character an e-mail match can consume. -/
def emailChar (c : Char) : Bool := emailLocal c || c = '@'

/-- Every character a phone match can consume. -/
def phoneChar (c : Char) : Bool :=
  c = '+' || c = '(' || c = ')' || pyDigit c || phoneSep c

theorem nwre_email : NWre P_email :=
  ⟨trivial, rfl, trivial, rfl, trivial⟩

theorem nwre_phone : NWre P_phone :=
  ⟨⟨rfl, rfl, trivial⟩, ⟨rfl, trivial, rfl, trivial⟩, trivial, trivial, trivial⟩

theorem charsRE_email : CharsRE emailChar P_email := by
  refine ⟨?_, ⟨rfl, ?_⟩, ?_, ⟨rfl, ?_⟩, ?_⟩
  · intro c h
    simp [emailChar, h]
  · decide
  · intro c h
    simp only [emailChar, emailLocal, emailDomain, Bool.or_eq_true] at h ⊢
    tauto
  · decide
  · intro c h
    simp [emailChar, emailLocal, Char.isAlphanum, h]

theorem charsRE_phone : CharsRE phoneChar P_phone := by
  refine ⟨⟨⟨rfl, by decide⟩, ⟨rfl, by decide⟩, ?_⟩,
    ⟨⟨rfl, by decide⟩, ?_, ⟨rfl, by decide⟩, ?_⟩, ?_, ?_, ?_⟩
  all_goals intro c h
  all_goals simp [phoneChar, h]

theorem mem_take_of_drop_take {S : Str} {j m k : Nat} {c : Char}
    (h : c ∈ (S.drop j).take m) (hk : j + m ≤ k) : c ∈ S.take k := by
  have hkj : k = j + (k - j) := by omega
  rw [hkj, List.take_add, List.mem_append]
  right
  have : (S.drop j).take m = ((S.drop j).take (k - j)).take m := by
    rw [List.take_take, Nat.min_def]
    split <;> first | rfl | omega
  rw [this] at h
  exact List.take_subset _ _ h

/-- Every e-mail match contains an `@`. -/
theorem email_witness (pw : Bool) (S : Str) (k : Nat)
    (hk : k ∈ reLensP P_email pw S) :
    ∃ c ∈ S.take k, (fun c : Char => decide (c = '@')) c = true := by
  simp only [P_email] at hk
  rw [mem_lensP_cat] at hk
  obtain ⟨k1, k2, h1, h2, rfl⟩ := hk
  rw [mem_lensP_cat] at h2
  obtain ⟨k3, k4, h3, h4, rfl⟩ := h2
  rw [mem_lensP_lit] at h3
  obtain ⟨⟨hlen, htake⟩, rfl⟩ := h3
  simp only [List.length_cons, List.length_nil, Bool.false_eq_true, if_false] at htake hlen ⊢
  refine ⟨'@', ?_, by simp⟩
  refine mem_take_of_drop_take (j := k1) (m := 1) ?_ (by omega)
  rw [htake]
  simp

/-- Every phone match contains a digit. -/
theorem phone_witness (pw : Bool) (S : Str) (k : Nat)
    (hk : k ∈ reLensP P_phone pw S) :
    ∃ c ∈ S.take k, pyDigit c = true := by
  simp only [P_phone] at hk
  rw [mem_lensP_cat] at hk
  obtain ⟨k1, k2, h1, h2, rfl⟩ := hk
  rw [mem_lensP_cat] at h2
  obtain ⟨k3, k4, h3, h4, rfl⟩ := h2
  rw [mem_lensP_cat] at h4
  obtain ⟨k5, k6, h5, h6, rfl⟩ := h4
  rw [mem_lensP_rep] at h5
  obtain ⟨hrun, rfl⟩ := h5
  have hlen3 : 3 ≤ (((S.drop k1).drop k3)).length :=
    le_trans hrun (maxRun_le_length _ _)
  have hne : (((S.drop k1).drop k3)).take 3 ≠ [] := by
    have hlt : ((((S.drop k1).drop k3)).take 3).length = 3 := by
      rw [List.length_take]
      omega
    intro hcon
    rw [hcon] at hlt
    simp at hlt
  obtain ⟨c, hc⟩ := List.exists_mem_of_ne_nil _ hne
  have hdig : pyDigit c = true := take_maxRun_all _ _ 3 hrun c hc
  refine ⟨c, ?_, hdig⟩
  rw [drop_drop'] at hc
  exact mem_take_of_drop_take hc (by omega)

/-- A match-free string is fixed by substitution. -/
theorem reSub_id_of_EF {r : RE} (hnw : NWre r) {q t : Str} (h : EF r t) :
    reSub r q t = t :=
  reSubFuel_id ((EF_iff_find_none (okre_of_nwre hnw) hnw none).mp h) _


/-- The SSN body shape `\d{3}-\d{2}-\d{4}` at the head of `s`, with the
trailing `\b` (the leading `\b` is a context condition kept separate).
Mirrors the engine's conditions literally. -/
def ssnB (s : Str) : Bool :=
  decide (3 ≤ maxRun pyDigit s) &&
  decide (1 ≤ (s.drop 3).length ∧ (s.drop 3).take 1 = ['-']) &&
  decide (2 ≤ maxRun pyDigit (s.drop 4)) &&
  decide (1 ≤ (s.drop 6).length ∧ (s.drop 6).take 1 = ['-']) &&
  decide (4 ≤ maxRun pyDigit (s.drop 7)) &&
  !wordHead (s.drop 11)

theorem okre_ssn : OKre P_ssn :=
  ⟨trivial, trivial, rfl, trivial, rfl, trivial, trivial⟩

theorem head_of_maxRun_pos {p : Char → Bool} {s : Str} (h : 1 ≤ maxRun p s) :
    ∃ c cs, s = c :: cs ∧ p c = true := by
  rcases s with _ | ⟨c, cs⟩
  · simp [maxRun] at h
  · refine ⟨c, cs, rfl, ?_⟩
    by_contra hc
    simp only [maxRun, Bool.not_eq_true] at h hc
    rw [hc] at h
    simp at h

theorem wordHead_append {s : Str} (t : Str) (h : s ≠ []) :
    wordHead (s ++ t) = wordHead s := by
  rcases s with _ | ⟨c, cs⟩
  · exact absurd rfl h
  · rfl

theorem mem_of_getLast?_eq {l : Str} {c : Char} (h : l.getLast? = some c) : c ∈ l := by
  obtain ⟨hne, heq⟩ := List.mem_getLast?_eq_getLast (show c ∈ l.getLast? from h)
  rw [heq]
  exact List.getLast_mem hne

theorem getLast_mem_drop {l : Str} {c : Char} :
    ∀ {j : Nat}, j < l.length → l.getLast? = some c → c ∈ l.drop j := by
  induction l with
  | nil => intro j h; simp at h
  | cons d ds ih =>
    intro j h hl
    rcases j with _ | j'
    · rw [List.drop_zero]
      exact mem_of_getLast?_eq hl
    · rw [List.drop_succ_cons]
      rcases ds with _ | ⟨e, es⟩
      · simp at h
      · rw [List.getLast?_cons_cons] at hl
        exact ih (by simpa using h) hl

/-- The engine's matches of the SSN pattern: a single 11-character match,
present exactly when the incoming context is non-word and the body shape
holds. -/
theorem mem_lensP_ssn {pw : Bool} {s : Str} {k : Nat} :
    k ∈ reLensP P_ssn pw s ↔ pw = false ∧ ssnB s = true ∧ k = 11 := by
  constructor
  · intro hk
    simp only [P_ssn] at hk
    rw [mem_lensP_cat] at hk
    obtain ⟨a, b, ha, hb, rfl⟩ := hk
    rw [mem_lensP_wordB] at ha
    obtain ⟨hent, rfl⟩ := ha
    simp only [List.drop_zero] at hb
    rw [mem_lensP_cat] at hb
    obtain ⟨b1, b2, hb1, hb2, rfl⟩ := hb
    rw [mem_lensP_rep] at hb1
    obtain ⟨hrun3, rfl⟩ := hb1
    rw [mem_lensP_cat] at hb2
    obtain ⟨c1, c2, hc1, hc2, rfl⟩ := hb2
    rw [mem_lensP_lit] at hc1
    obtain ⟨⟨hlen1, htake1⟩, rfl⟩ := hc1
    simp only [List.length_cons, List.length_nil, Nat.zero_add, Bool.false_eq_true,
      if_false] at hlen1 htake1
    simp only [List.length_cons, List.length_nil, Nat.zero_add] at hc2
    rw [drop_drop'] at hc2
    have h34 : (3 : Nat) + 1 = 4 := rfl
    rw [h34] at hc2
    rw [mem_lensP_cat] at hc2
    obtain ⟨d1, d2, hd1, hd2, rfl⟩ := hc2
    rw [mem_lensP_rep] at hd1
    obtain ⟨hrun2, rfl⟩ := hd1
    rw [drop_drop'] at hd2
    have h46 : (4 : Nat) + 2 = 6 := rfl
    rw [h46] at hd2
    rw [mem_lensP_cat] at hd2
    obtain ⟨e1, e2, he1, he2, rfl⟩ := hd2
    rw [mem_lensP_lit] at he1
    obtain ⟨⟨hlen2, htake2⟩, rfl⟩ := he1
    simp only [List.length_cons, List.length_nil, Nat.zero_add, Bool.false_eq_true,
      if_false] at hlen2 htake2
    simp only [List.length_cons, List.length_nil, Nat.zero_add] at he2
    rw [drop_drop'] at he2
    have h67 : (6 : Nat) + 1 = 7 := rfl
    rw [h67] at he2
    rw [mem_lensP_cat] at he2
    obtain ⟨f1, f2, hf1, hf2, rfl⟩ := he2
    rw [mem_lensP_rep] at hf1
    obtain ⟨hrun4, rfl⟩ := hf1
    rw [mem_lensP_wordB] at hf2
    obtain ⟨hend, rfl⟩ := hf2
    rw [drop_drop'] at hend
    have h711 : (7 : Nat) + 4 = 11 := rfl
    rw [h711] at hend
    obtain ⟨ch, chs, hcons, hch⟩ := head_of_maxRun_pos (show 1 ≤ maxRun pyDigit s by omega)
    have hwh : wordHead s = true := by
      rw [hcons]
      simp [wordHead, pyWord, Char.isAlphanum, show ch.isDigit = true from hch]
    have hpw : pw = false := by
      rcases pw with _ | _
      · rfl
      · rw [hwh] at hent
        exact absurd rfl hent
    have hw4 : ∀ X : Bool, wAt X (s.drop 7) 4 = true := by
      intro X
      unfold wAt
      have hlen4 : ((s.drop 7).take 4).length = 4 := by
        rw [List.length_take]
        have := le_trans hrun4 (maxRun_le_length pyDigit (s.drop 7))
        omega
      rcases hgl : ((s.drop 7).take 4).getLast? with _ | c4
      · rw [List.getLast?_eq_none_iff] at hgl
        rw [hgl] at hlen4
        simp at hlen4
      · have hc4mem : c4 ∈ (s.drop 7).take 4 := mem_of_getLast?_eq hgl
        have hc4dig : pyDigit c4 = true := take_maxRun_all _ _ 4 hrun4 c4 hc4mem
        simp [pyWord, Char.isAlphanum, show c4.isDigit = true from hc4dig]
    rw [hw4 _] at hend
    have hnw11 : wordHead (s.drop 11) = false := by
      rcases hwh11 : wordHead (s.drop 11) with _ | _
      · rfl
      · rw [hwh11] at hend
        exact absurd rfl hend
    refine ⟨hpw, ?_, by simp only [List.length_cons, List.length_nil]⟩
    unfold ssnB
    simp only [Bool.and_eq_true, decide_eq_true_eq, Bool.not_eq_true']
    exact ⟨⟨⟨⟨⟨hrun3, hlen1, htake1⟩, hrun2⟩, hlen2, htake2⟩, hrun4⟩, hnw11⟩
  · rintro ⟨hpw, hB, rfl⟩
    unfold ssnB at hB
    simp only [Bool.and_eq_true, decide_eq_true_eq, Bool.not_eq_true'] at hB
    obtain ⟨⟨⟨⟨⟨hrun3, hlen1, htake1⟩, hrun2⟩, hlen2, htake2⟩, hrun4⟩, hnw11⟩ := hB
    obtain ⟨ch, chs, hcons, hch⟩ := head_of_maxRun_pos (show 1 ≤ maxRun pyDigit s by omega)
    have hwh : wordHead s = true := by
      rw [hcons]
      simp [wordHead, pyWord, Char.isAlphanum, show ch.isDigit = true from hch]
    have hw4 : ∀ X : Bool, wAt X (s.drop 7) 4 = true := by
      intro X
      unfold wAt
      have hlen4 : ((s.drop 7).take 4).length = 4 := by
        rw [List.length_take]
        have := le_trans hrun4 (maxRun_le_length pyDigit (s.drop 7))
        omega
      rcases hgl : ((s.drop 7).take 4).getLast? with _ | c4
      · rw [List.getLast?_eq_none_iff] at hgl
        rw [hgl] at hlen4
        simp at hlen4
      · have hc4mem : c4 ∈ (s.drop 7).take 4 := mem_of_getLast?_eq hgl
        have hc4dig : pyDigit c4 = true := take_maxRun_all _ _ 4 hrun4 c4 hc4mem
        simp [pyWord, Char.isAlphanum, show c4.isDigit = true from hc4dig]
    simp only [P_ssn]
    rw [mem_lensP_cat]
    refine ⟨0, 11, ?_, ?_, by omega⟩
    · rw [mem_lensP_wordB]
      refine ⟨?_, rfl⟩
      rw [hpw, hwh]
      simp
    · simp only [List.drop_zero]
      rw [mem_lensP_cat]
      refine ⟨3, 8, ?_, ?_, by omega⟩
      · rw [mem_lensP_rep]
        exact ⟨hrun3, rfl⟩
      · rw [mem_lensP_cat]
        refine ⟨1, 7, ?_, ?_, by omega⟩
        · rw [mem_lensP_lit]
          simp only [List.length_cons, List.length_nil, Nat.zero_add, Bool.false_eq_true,
            if_false]
          exact ⟨⟨hlen1, htake1⟩, trivial⟩
        · rw [drop_drop']
          rw [show (3 : Nat) + 1 = 4 from rfl]
          rw [mem_lensP_cat]
          refine ⟨2, 5, ?_, ?_, by omega⟩
          · rw [mem_lensP_rep]
            exact ⟨hrun2, rfl⟩
          · rw [drop_drop']
            rw [show (4 : Nat) + 2 = 6 from rfl]
            rw [mem_lensP_cat]
            refine ⟨1, 4, ?_, ?_, by omega⟩
            · rw [mem_lensP_lit]
              simp only [List.length_cons, List.length_nil, Nat.zero_add, Bool.false_eq_true,
                if_false]
              exact ⟨⟨hlen2, htake2⟩, trivial⟩
            · rw [drop_drop']
              rw [show (6 : Nat) + 1 = 7 from rfl]
              rw [mem_lensP_cat]
              refine ⟨4, 0, ?_, ?_, by omega⟩
              · rw [mem_lensP_rep]
                exact ⟨hrun4, rfl⟩
              · rw [mem_lensP_wordB]
                refine ⟨?_, rfl⟩
                rw [drop_drop']
                rw [show (7 : Nat) + 4 = 11 from rfl]
                rw [hw4 _, hnw11]
                simp


theorem maxRun_append_not {p : Char → Bool} {x : Char} (hx : p x = false)
    (u w : Str) : maxRun p (u ++ x :: w) ≤ u.length := by
  rw [maxRun_append]
  split
  · omega
  · simp only [maxRun, hx, Bool.false_eq_true, if_false]
    omega

theorem ssnB_head_digit {s : Str} (h : ssnB s = true) :
    ∃ c cs, s = c :: cs ∧ pyDigit c = true := by
  unfold ssnB at h
  simp only [Bool.and_eq_true, decide_eq_true_eq] at h
  exact head_of_maxRun_pos (show 1 ≤ maxRun pyDigit s by
    have := h.1.1.1.1.1
    omega)

theorem ssnB_trailing {s : Str} (h : ssnB s = true) :
    wordHead (s.drop 11) = false := by
  unfold ssnB at h
  simp only [Bool.and_eq_true, Bool.not_eq_true'] at h
  exact h.2

theorem ssnB_len {s : Str} (h : ssnB s = true) : 11 ≤ s.length := by
  unfold ssnB at h
  simp only [Bool.and_eq_true, decide_eq_true_eq] at h
  have h4 := le_trans h.1.2 (maxRun_le_length pyDigit (s.drop 7))
  rw [List.length_drop] at h4
  omega

theorem ssnB_digits4 {s : Str} (h : ssnB s = true) :
    ∀ c ∈ (s.drop 7).take 4, pyDigit c = true := by
  unfold ssnB at h
  simp only [Bool.and_eq_true, decide_eq_true_eq] at h
  exact fun c hc => take_maxRun_all _ _ 4 h.1.2 c hc

/-- `ssnB` only inspects the first twelve characters. -/
theorem ssnB_take12 {u : Str} (v : Str) (h : 12 ≤ u.length) :
    ssnB (u ++ v) = ssnB u := by
  have hrun : ∀ (j bound : Nat), j + bound ≤ 12 →
      (decide (bound ≤ maxRun pyDigit ((u ++ v).drop j)) =
        decide (bound ≤ maxRun pyDigit (u.drop j))) := by
    intro j bound hj
    have hdropj : (u ++ v).drop j = u.drop j ++ v :=
      List.drop_append_of_le_length (by omega)
    rw [hdropj, maxRun_append]
    have hlenuj : (u.drop j).length = u.length - j := List.length_drop _ _
    split <;> rename_i hsp
    · rfl
    · have : u.length - j ≤ maxRun pyDigit (u.drop j) := by omega
      have hle : bound ≤ u.length - j := by omega
      simp only [decide_eq_decide]
      constructor
      · intro _
        omega
      · intro _
        omega
  have htak : ∀ j : Nat, j + 1 ≤ 12 → (u ++ v).drop j = u.drop j ++ v := by
    intro j hj
    exact List.drop_append_of_le_length (by omega)
  have hrun0 : decide (3 ≤ maxRun pyDigit (u ++ v)) = decide (3 ≤ maxRun pyDigit u) := by
    have := hrun 0 3 (by omega)
    simpa using this
  unfold ssnB
  rw [hrun0]
  rw [hrun 4 2 (by omega), hrun 7 4 (by omega)]
  rw [htak 3 (by omega), htak 6 (by omega), htak 11 (by omega)]
  have hlen3 : (u.drop 3).length = u.length - 3 := List.length_drop _ _
  have hlen6 : (u.drop 6).length = u.length - 6 := List.length_drop _ _
  have h3 : (u.drop 3 ++ v).take 1 = (u.drop 3).take 1 :=
    List.take_append_of_le_length (by omega)
  have h6 : (u.drop 6 ++ v).take 1 = (u.drop 6).take 1 :=
    List.take_append_of_le_length (by omega)
  have h11 : wordHead (u.drop 11 ++ v) = wordHead (u.drop 11) := by
    refine wordHead_append v ?_
    intro hcon
    have := congrArg List.length hcon
    rw [List.length_drop] at this
    simp at this
    omega
  rw [h3, h6, h11]
  have hl3 : (u.drop 3 ++ v).length = (u.drop 3).length + v.length := List.length_append _ _
  have hl6 : (u.drop 6 ++ v).length = (u.drop 6).length + v.length := List.length_append _ _
  rw [hl3, hl6]
  have e1 : decide (1 ≤ (u.drop 3).length + v.length ∧ (u.drop 3).take 1 = ['-'])
      = decide (1 ≤ (u.drop 3).length ∧ (u.drop 3).take 1 = ['-']) := by
    simp only [decide_eq_decide]
    constructor
    · rintro ⟨h1, h2⟩
      exact ⟨by omega, h2⟩
    · rintro ⟨h1, h2⟩
      exact ⟨by omega, h2⟩
  have e2 : decide (1 ≤ (u.drop 6).length + v.length ∧ (u.drop 6).take 1 = ['-'])
      = decide (1 ≤ (u.drop 6).length ∧ (u.drop 6).take 1 = ['-']) := by
    simp only [decide_eq_decide]
    constructor
    · rintro ⟨h1, h2⟩
      exact ⟨by omega, h2⟩
    · rintro ⟨h1, h2⟩
      exact ⟨by omega, h2⟩
  rw [e1, e2]

/-- A short fragment followed by a non-digit, non-dash character admits no
SSN body. -/
theorem ssnB_block {u : Str} {d : Char} (hd1 : pyDigit d = false) (hd2 : d ≠ '-')
    (hu : u.length ≤ 10) (w : Str) : ssnB (u ++ d :: w) = false := by
  by_contra hcon
  rw [Bool.not_eq_false] at hcon
  unfold ssnB at hcon
  simp only [Bool.and_eq_true, decide_eq_true_eq] at hcon
  obtain ⟨⟨⟨⟨⟨hrun3, hlen1, htake1⟩, hrun2⟩, hlen2, htake2⟩, hrun4⟩, _⟩ := hcon
  by_cases h3 : u.length ≤ 2
  · have := maxRun_append_not hd1 u w
    omega
  · by_cases h4 : u.length = 3
    · rw [List.drop_append_of_le_length (by omega),
        List.drop_of_length_le (by omega)] at htake1
      simp only [List.nil_append] at htake1
      rw [List.take_succ_cons] at htake1
      simp only [List.take_zero, List.cons.injEq] at htake1
      exact hd2 htake1.1
    · by_cases h5 : u.length ≤ 5
      · rw [List.drop_append_of_le_length (by omega)] at hrun2
        have := maxRun_append_not hd1 (u.drop 4) w
        rw [List.length_drop] at this
        omega
      · by_cases h6 : u.length = 6
        · rw [List.drop_append_of_le_length (by omega),
            List.drop_of_length_le (by omega)] at htake2
          simp only [List.nil_append] at htake2
          rw [List.take_succ_cons] at htake2
          simp only [List.take_zero, List.cons.injEq] at htake2
          exact hd2 htake2.1
        · rw [List.drop_append_of_le_length (by omega)] at hrun4
          have := maxRun_append_not hd1 (u.drop 7) w
          rw [List.length_drop] at this
          omega


theorem pyWord_of_digit {c : Char} (h : pyDigit c = true) : pyWord c = true := by
  simp [pyWord, Char.isAlphanum, show c.isDigit = true from h]

/-- After the SSN substitution pass, no scan position of the output admits a
further SSN match, and a non-word head is preserved. -/
theorem reSubFuel_exhausts_ssn (mid : Str)
    (hqd : ∀ c ∈ '[' :: mid ++ [']'], pyDigit c = false) :
    ∀ (fuel : Nat) (s : Str) (prev : Option Char), s.length < fuel →
      (∀ i, isWordOpt (prevAt prev (reSubFuel P_ssn ('[' :: mid ++ [']']) fuel prev s) i) = false →
        ssnB ((reSubFuel P_ssn ('[' :: mid ++ [']']) fuel prev s).drop i) = false) ∧
      (wordHead s = false →
        wordHead (reSubFuel P_ssn ('[' :: mid ++ [']']) fuel prev s) = false) := by
  intro fuel
  induction fuel with
  | zero => intro s prev h; exact absurd h (Nat.not_lt_zero _)
  | succ n ih =>
    intro s prev hlen
    rcases hf : reFindAux P_ssn prev s with _ | x
    · rw [reSubFuel_id hf]
      have hfree := (reFindAux_none_iff P_ssn prev s).mp hf
      refine ⟨?_, fun h => h⟩
      intro i hw
      by_contra hB0
      rw [Bool.not_eq_false] at hB0
      have hmem : (11 : Nat) ∈ reLensP P_ssn (isWordOpt (prevAt prev s i)) (s.drop i) :=
        mem_lensP_ssn.mpr ⟨hw, hB0, rfl⟩
      rw [(reMatches_empty_iff P_ssn okre_ssn _ _).mp (hfree i)] at hmem
      simp at hmem
    · rcases x with ⟨pre, m, rest, g⟩
      obtain ⟨hsplit, hfree0, p1, hhead⟩ := reFindAux_some_spec P_ssn prev s pre m rest g hf
      have hdropPre : s.drop pre.length = m ++ rest := by
        rw [hsplit, List.append_assoc, List.drop_left]
      have hmem0 : (p1, rest, g) ∈
          reMatches P_ssn (prevAt prev s pre.length) (s.drop pre.length) :=
        List.mem_of_mem_head? (by rw [hhead]; rfl)
      rw [reMatches_eq_lensP P_ssn okre_ssn] at hmem0
      obtain ⟨k, hkmem, hkeq⟩ := List.mem_map.mp hmem0
      simp only [Prod.mk.injEq] at hkeq
      have hrest_eq : (s.drop pre.length).drop k = rest := hkeq.2.1
      obtain ⟨hPW, hA, hk11⟩ := mem_lensP_ssn.mp hkmem
      subst hk11
      have hAlen : 11 ≤ (s.drop pre.length).length := ssnB_len hA
      have hmlen : m.length = 11 := by
        have h1 := congrArg List.length hrest_eq
        rw [List.length_drop, hdropPre, List.length_append] at h1
        rw [hdropPre, List.length_append] at hAlen
        omega
      have hmne : m ≠ [] := by
        intro hcon
        rw [hcon] at hmlen
        simp at hmlen
      have hslen : s.length = pre.length + m.length + rest.length := by
        rw [hsplit]
        simp only [List.length_append]
      have hrestw : wordHead rest = false := by
        rw [← hrest_eq]
        exact ssnB_trailing hA
      rcases hl : m.getLast? with _ | c
      · exact absurd (List.getLast?_eq_none_iff.mp hl) hmne
      · have hout : reSubFuel P_ssn ('[' :: mid ++ [']']) (n + 1) prev s =
            pre ++ ('[' :: mid ++ [']']) ++
              reSubFuel P_ssn ('[' :: mid ++ [']']) n (some c) rest := by
          simp only [reSubFuel, hf, hl]
        obtain ⟨IH1, IH2⟩ := ih rest (some c) (by omega)
        have houtw : wordHead (reSubFuel P_ssn ('[' :: mid ++ [']']) n (some c) rest) = false :=
          IH2 hrestw
        rw [hout]
        set out2 := reSubFuel P_ssn ('[' :: mid ++ [']']) n (some c) rest with hout2
        have hQw : ('[' :: mid ++ [']']) ++ out2 = '[' :: (mid ++ ']' :: out2) := by simp
        have hQlen : ('[' :: mid ++ [']']).length = mid.length + 2 := by simp
        constructor
        · intro i hw
          by_contra hB0
          rw [Bool.not_eq_false] at hB0
          by_cases h1 : i < pre.length
          · -- inside the free prefix
            have hdropi_out : (pre ++ ('[' :: mid ++ [']']) ++ out2).drop i
                = pre.drop i ++ ('[' :: (mid ++ ']' :: out2)) := by
              rw [List.append_assoc, List.drop_append_of_le_length (le_of_lt h1), hQw]
            have hdropi_s : s.drop i = pre.drop i ++ (m ++ rest) := by
              rw [hsplit, List.append_assoc,
                List.drop_append_of_le_length (le_of_lt h1)]
            have hprevA : prevAt prev (pre ++ ('[' :: mid ++ [']']) ++ out2) i
                = prevAt prev s i := by
              rw [List.append_assoc, prevAt_append_left _ _ _ _ (le_of_lt h1),
                hsplit, List.append_assoc, prevAt_append_left _ _ _ _ (le_of_lt h1)]
            rw [hprevA] at hw
            have hSB : ssnB (s.drop i) = false := by
              by_contra hSB0
              rw [Bool.not_eq_false] at hSB0
              have hmem : (11 : Nat) ∈
                  reLensP P_ssn (isWordOpt (prevAt prev s i)) (s.drop i) :=
                mem_lensP_ssn.mpr ⟨hw, hSB0, rfl⟩
              rw [(reMatches_empty_iff P_ssn okre_ssn _ _).mp (hfree0 i h1)] at hmem
              simp at hmem
            have hulen : (pre.drop i).length = pre.length - i := List.length_drop _ _
            by_cases h12 : 12 ≤ pre.length - i
            · rw [hdropi_out, ssnB_take12 _ (by omega)] at hB0
              rw [hdropi_s, ssnB_take12 _ (by omega)] at hSB
              rw [hB0] at hSB
              exact absurd hSB (by simp)
            · by_cases h11 : pre.length - i = 11
              · rw [hdropi_out] at hB0
                have hdig := ssnB_digits4 hB0
                have hu7 : (pre.drop i ++ ('[' :: (mid ++ ']' :: out2))).drop 7
                    = pre.drop (i + 7) ++ ('[' :: (mid ++ ']' :: out2)) := by
                  rw [List.drop_append_of_le_length (by omega), drop_drop']
                have hlen47 : (pre.drop (i + 7)).length = 4 := by
                  rw [List.length_drop]
                  omega
                have htake4 : (pre.drop (i + 7) ++ ('[' :: (mid ++ ']' :: out2))).take 4
                    = pre.drop (i + 7) := List.take_left' hlen47
                rw [hu7, htake4] at hdig
                rcases hgl : pre.getLast? with _ | cl
                · rw [List.getLast?_eq_none_iff] at hgl
                  rw [hgl] at h11
                  simp at h11
                · have hclmem : cl ∈ pre.drop (i + 7) :=
                    getLast_mem_drop (by omega) hgl
                  have hcldig : pyDigit cl = true := hdig cl hclmem
                  have hprevP : prevAt prev s pre.length = some cl := by
                    unfold prevAt
                    rw [hsplit, List.append_assoc, List.take_left, hgl]
                  rw [hprevP] at hPW
                  simp only [isWordOpt] at hPW
                  rw [pyWord_of_digit hcldig] at hPW
                  exact absurd hPW (by simp)
              · -- pre.length - i ≤ 10 : the body would hit '['
                rw [hdropi_out] at hB0
                rw [ssnB_block (by decide) (by decide) (by omega)] at hB0
                exact absurd hB0 (by simp)
          · by_cases h2 : i < pre.length + (mid.length + 2)
            · -- inside the placeholder
              have hdropi_out : (pre ++ ('[' :: mid ++ [']']) ++ out2).drop i
                  = ('[' :: mid ++ [']']).drop (i - pre.length) ++ out2 := by
                rw [List.append_assoc]
                conv_lhs =>
                  rw [show i = pre.length + (i - pre.length) from by omega,
                    ← drop_drop', List.drop_left]
                rw [show ('[' :: mid ++ [']']) ++ out2 =
                  (('[' :: mid ++ [']']) : Str) ++ out2 from rfl]
                exact List.drop_append_of_le_length (by rw [hQlen]; omega)
              rw [hdropi_out] at hB0
              rcases hQd : ('[' :: mid ++ [']']).drop (i - pre.length) with _ | ⟨qc, qcs⟩
              · have := congrArg List.length hQd
                rw [List.length_drop, hQlen] at this
                simp at this
                omega
              · rw [hQd] at hB0
                obtain ⟨c0, cs0, hcons0, hdg0⟩ := ssnB_head_digit hB0
                simp only [List.cons_append, List.cons.injEq] at hcons0
                have hqcmem : qc ∈ '[' :: mid ++ [']'] := by
                  have : qc ∈ ('[' :: mid ++ [']']).drop (i - pre.length) := by
                    rw [hQd]
                    exact List.mem_cons_self _ _
                  exact List.drop_subset _ _ this
                rw [← hcons0.1] at hdg0
                rw [hqd qc hqcmem] at hdg0
                exact absurd hdg0 (by simp)
            · -- inside the recursive output
              have hdropi_out : (pre ++ ('[' :: mid ++ [']']) ++ out2).drop i
                  = out2.drop (i - pre.length - (mid.length + 2)) := by
                conv_lhs =>
                  rw [show i = (pre.length + (mid.length + 2)) +
                      (i - pre.length - (mid.length + 2)) from by omega,
                    show pre.length + (mid.length + 2) =
                      (pre ++ ('[' :: mid ++ [']'])).length from by
                        rw [List.length_append, hQlen],
                    ← drop_drop', List.drop_left]
              rw [hdropi_out] at hB0
              rcases hj : i - pre.length - (mid.length + 2) with _ | j'
              · rw [hj, List.drop_zero] at hB0
                obtain ⟨c0, cs0, hcons0, hdg0⟩ := ssnB_head_digit hB0
                rw [hcons0] at houtw
                simp only [wordHead] at houtw
                rw [pyWord_of_digit hdg0] at houtw
                exact absurd houtw (by simp)
              · rw [hj] at hB0
                by_cases hjb : j' + 1 ≤ out2.length
                · rcases hgl2 : (out2.take (j' + 1)).getLast? with _ | d
                  · rw [List.getLast?_eq_none_iff, List.take_eq_nil_iff] at hgl2
                    rcases hgl2 with hc1 | hc1
                    · simp at hc1
                    · rw [hc1, List.drop_nil] at hB0
                      simp [ssnB, maxRun] at hB0
                  · have hA2 : prevAt prev
                        (pre ++ ('[' :: mid ++ [']']) ++ out2) i = some d := by
                      unfold prevAt
                      have htk : (pre ++ ('[' :: mid ++ [']']) ++ out2).take i
                          = (pre ++ ('[' :: mid ++ [']'])) ++ out2.take (j' + 1) := by
                        rw [List.take_append_eq_append_take,
                          List.take_of_length_le (by
                            rw [List.length_append, hQlen]
                            omega),
                          show i - (pre ++ ('[' :: mid ++ [']'])).length
                            = j' + 1 from by
                            rw [List.length_append, hQlen]
                            omega]
                      rw [htk, List.getLast?_append_of_ne_nil _ (by
                        intro hcon
                        rw [List.take_eq_nil_iff] at hcon
                        rcases hcon with hc1 | hc1
                        · simp at hc1
                        · rw [hc1] at hjb
                          simp at hjb), hgl2]
                    have hwt : isWordOpt (prevAt (some c) out2 (j' + 1)) = false := by
                      have hA1 : prevAt (some c) out2 (j' + 1) = some d := by
                        unfold prevAt
                        rw [hgl2]
                      rw [hA1]
                      rw [hA2] at hw
                      exact hw
                    have hIH := IH1 (j' + 1) hwt
                    rw [hIH] at hB0
                    exact absurd hB0 (by simp)
                · rw [List.drop_of_length_le (by omega)] at hB0
                  simp [ssnB, maxRun] at hB0
        · intro hsw
          rcases hpre : pre with _ | ⟨pc, pcs⟩
          · have hA2 : ssnB s = true := by
              try rw [hpre] at hA
              simpa using hA
            obtain ⟨c0, cs0, hcons0, hdg0⟩ := ssnB_head_digit hA2
            rw [hcons0] at hsw
            simp only [wordHead] at hsw
            rw [pyWord_of_digit hdg0] at hsw
            exact absurd hsw (by simp)
          · try rw [hpre]
            rw [hsplit] at hsw
            try rw [hpre] at hsw
            simp only [List.cons_append, wordHead] at hsw ⊢
            exact hsw


/-- The e-mail pass leaves no e-mail match anywhere in its output. -/
theorem EF_email_sub (x : Str) :
    EF P_email (reSub P_email "[REDACTED_EMAIL]".data x) := by
  have hq : "[REDACTED_EMAIL]".data = '[' :: "REDACTED_EMAIL".data ++ [']'] := by decide
  rw [reSub, hq]
  exact reSubFuel_exhausts nwre_email charsRE_email email_witness (by decide) (by decide)
    (by decide) (x.length + 1) x none (by omega)

/-- The phone pass leaves no phone match anywhere in its output. -/
theorem EF_phone_sub (x : Str) :
    EF P_phone (reSub P_phone "[REDACTED_PHONE]".data x) := by
  have hq : "[REDACTED_PHONE]".data = '[' :: "REDACTED_PHONE".data ++ [']'] := by decide
  rw [reSub, hq]
  exact reSubFuel_exhausts nwre_phone charsRE_phone phone_witness (by decide) (by decide)
    (by decide) (x.length + 1) x none (by omega)

/-- The phone pass cannot introduce an e-mail match. -/
theorem EF_email_after_phone {t : Str} (h : EF P_email t) :
    EF P_email (reSub P_phone "[REDACTED_PHONE]".data t) := by
  have hq : "[REDACTED_PHONE]".data = '[' :: "REDACTED_PHONE".data ++ [']'] := by decide
  rw [reSub, hq]
  exact reSubFuel_preserves_EF nwre_email charsRE_email email_witness (by decide) (by decide)
    (by decide) P_phone (t.length + 1) t none h

/-- The SSN pass cannot introduce an e-mail match. -/
theorem EF_email_after_ssn {t : Str} (h : EF P_email t) :
    EF P_email (reSub P_ssn "[REDACTED_SSN]".data t) := by
  have hq : "[REDACTED_SSN]".data = '[' :: "REDACTED_SSN".data ++ [']'] := by decide
  rw [reSub, hq]
  exact reSubFuel_preserves_EF nwre_email charsRE_email email_witness (by decide) (by decide)
    (by decide) P_ssn (t.length + 1) t none h

/-- The SSN pass cannot introduce a phone match. -/
theorem EF_phone_after_ssn {t : Str} (h : EF P_phone t) :
    EF P_phone (reSub P_ssn "[REDACTED_SSN]".data t) := by
  have hq : "[REDACTED_SSN]".data = '[' :: "REDACTED_SSN".data ++ [']'] := by decide
  rw [reSub, hq]
  exact reSubFuel_preserves_EF nwre_phone charsRE_phone phone_witness (by decide) (by decide)
    (by decide) P_ssn (t.length + 1) t none h

/-- The SSN pass leaves no SSN match anywhere in its output. -/
theorem ssn_sub_scan_free (t : Str) :
    reFindAux P_ssn none (reSub P_ssn "[REDACTED_SSN]".data t) = none := by
  have hq : "[REDACTED_SSN]".data = '[' :: "REDACTED_SSN".data ++ [']'] := by decide
  rw [reSub, hq]
  obtain ⟨H1, _⟩ := reSubFuel_exhausts_ssn "REDACTED_SSN".data (by decide)
    (t.length + 1) t none (by omega)
  rw [reFindAux_none_iff]
  intro i
  rw [reMatches_eq_lensP P_ssn okre_ssn, List.map_eq_nil_iff]
  by_contra hne
  obtain ⟨k, hk⟩ := List.exists_mem_of_ne_nil _ hne
  obtain ⟨hpw, hB, _⟩ := mem_lensP_ssn.mp hk
  rw [H1 i hpw] at hB
  exact absurd hB (by simp)

/-- The composed redaction of extractors.py is idempotent. -/
theorem redactPII_idem (x : Str) : redactPII (redactPII x) = redactPII x := by
  unfold redactPII
  have hE1 : EF P_email (reSub P_email "[REDACTED_EMAIL]".data x) := EF_email_sub x
  have hE2 := EF_email_after_phone hE1
  have hE3 := EF_email_after_ssn hE2
  have hP2 : EF P_phone (reSub P_phone "[REDACTED_PHONE]".data
      (reSub P_email "[REDACTED_EMAIL]".data x)) := EF_phone_sub _
  have hP3 := EF_phone_after_ssn hP2
  rw [reSub_id_of_EF nwre_email hE3, reSub_id_of_EF nwre_phone hP3]
  exact reSubFuel_id (ssn_sub_scan_free _) _

set_option maxRecDepth 8000 in
/-- C7: PII redaction is idempotent — for every flag value and every string,
`redact_pii (redact_pii x) = redact_pii x` — and any text in which the code's
own scans find no e-mail-like, phone-like or SSN-like substring is returned
unchanged (in particular it is never lengthened). -/
theorem pii_redaction_idempotent_and_stable (flag : String) (text : Str) :
    redact_pii flag (redact_pii flag text) = redact_pii flag text ∧
    (reSearch P_email text = none → reSearch P_phone text = none →
      reSearch P_ssn text = none → redact_pii flag text = text) := by
  constructor
  · unfold redact_pii
    by_cases h : redactEnabled flag
    · rw [if_pos h, if_pos h]
      exact redactPII_idem text
    · rw [if_neg h, if_neg h]
  · intro h1 h2 h3
    unfold redact_pii
    by_cases h : redactEnabled flag
    · rw [if_pos h]
      unfold redactPII
      have e1 : reSub P_email "[REDACTED_EMAIL]".data text = text := reSubFuel_id h1 _
      rw [e1]
      have e2 : reSub P_phone "[REDACTED_PHONE]".data text = text := reSubFuel_id h2 _
      rw [e2]
      exact reSubFuel_id h3 _
    · rw [if_neg h]

set_option maxRecDepth 8000 in
/-- C7 (witness): concrete instances — redacting a phone-bearing string twice
equals redacting it once, and a PII-free string is returned unchanged. -/
theorem pii_redaction_witness :
    redact_pii "true" (redact_pii "true" "call 555-123-4567 or a@b.co".data) =
      redact_pii "true" "call 555-123-4567 or a@b.co".data ∧
    redact_pii "true" "hi there!".data = "hi there!".data :=
  ⟨(pii_redaction_idempotent_and_stable "true" "call 555-123-4567 or a@b.co".data).1,
   (pii_redaction_idempotent_and_stable "true" "hi there!".data).2
     (by decide) (by decide) (by decide)⟩

end LearningTool
